import Mathlib

/-!
Verification of the chasm-ai graph core: a shallow embedding of the
`ChasmGraph` store (`chasm/graph/builder.py`), its persistence codec
(`chasm/graph/persistence.py`), the entity schemas (`chasm/models/schema.py`)
and the semantic linker (`chasm/vector/engine.py`).

The store is a NetworkX `DiGraph`; we model it with insertion-ordered
association lists, which is exactly the observable behaviour of Python
dictionaries: node and edge attribute dictionaries preserve key insertion
order, re-assigning an existing key keeps its position, and `add_node` /
`add_edge` on an existing node/edge *update* the stored attribute dictionary
rather than replacing it.

Attribute values appearing in this program are JSON-safe primitives produced
by `model_dump(mode="json")`: null, strings, numbers, lists of strings
(insight tags) and lists of numbers (embeddings).  Machine floats are
modelled as rationals; the cosine-similarity kernel of scikit-learn is kept
parametric (`sim` below), since every claim about the linker concerns the
loop structure, the inclusive threshold comparison, edge direction, rounding
and counting, none of which depend on the numeric kernel.
-/

namespace Chasm

/-- JSON-safe Python attribute value, as produced by
`model_dump(mode="json")` and stored in NetworkX attribute dicts. -/
inductive PyVal where
  | vnull : PyVal
  | vstr (s : String) : PyVal
  | vnum (q : ℚ) : PyVal
  | vstrList (l : List String) : PyVal
  | vnumList (l : List ℚ) : PyVal
deriving DecidableEq

/-- Python truthiness of an attribute value (`if data.get("embedding"):`):
`None`, `""`, `0` and `[]` are falsy. -/
def PyVal.truthy : PyVal → Bool
  | .vnull => false
  | .vstr s => !(s.isEmpty)
  | .vnum q => decide (q ≠ 0)
  | .vstrList l => !(l.isEmpty)
  | .vnumList l => !(l.isEmpty)

/-- Truthiness of `d.get(k)`: a missing key yields `None`, which is falsy. -/
def optTruthy : Option PyVal → Bool
  | none => false
  | some v => v.truthy

/-- A Python dictionary with `String` keys, in key-insertion order. -/
abbrev Attrs := List (String × PyVal)

section KeyedList

variable {κ β : Type} [DecidableEq κ]

/-- First binding for key `k` (Python dict lookup: keys are unique, so the
first binding is the binding). -/
def lookupKey (l : List (κ × β)) (k : κ) : Option β :=
  (l.find? fun p => decide (p.1 = k)).map (fun p => p.2)

/-- Replace the value bound to key `k` in place (Python dict assignment to an
existing key keeps its position). -/
def replaceKey (l : List (κ × β)) (k : κ) (f : β → β) : List (κ × β) :=
  l.map fun p => if p.1 = k then (p.1, f p.2) else p

/-- Whether key `k` is bound. -/
def hasKey (l : List (κ × β)) (k : κ) : Bool :=
  l.any fun p => decide (p.1 = k)
end KeyedList

/-- Python `d.get(k)` on an attribute dictionary. -/
def dictGet (d : Attrs) (k : String) : Option PyVal := lookupKey d k

/-- Python `d[k] = v`: overwrite in place if the key exists, else append. -/
def dictSet (d : Attrs) (k : String) (v : PyVal) : Attrs :=
  if hasKey d k then replaceKey d k (fun _ => v) else d ++ [(k, v)]

/-- Python `d.update(u)`: assign every binding of `u` into `d`, in order. -/
def dictUpdate (d u : Attrs) : Attrs :=
  u.foldl (fun a p => dictSet a p.1 p.2) d

/-! ### The directed graph store

`ChasmGraph` (`chasm/graph/builder.py`) wraps a NetworkX `DiGraph`.  We model
the `DiGraph` as the insertion-ordered list of nodes (id, attribute dict) and
the list of edges ((source, target), attribute dict).  NetworkX `add_node` /
`add_edge` update the attribute dict of an existing node/edge in place and
append new ones; `add_edge` first silently creates missing endpoint nodes
with an empty attribute dict. -/

structure DiGraph where
  nodes : List (String × Attrs)
  edges : List ((String × String) × Attrs)
deriving DecidableEq

namespace DiGraph

/-- The empty graph (`nx.DiGraph()`). -/
def empty : DiGraph := ⟨[], []⟩

def nodeIds (g : DiGraph) : List String := g.nodes.map Prod.fst

def edgeKeys (g : DiGraph) : List (String × String) := g.edges.map Prod.fst

def hasNode (g : DiGraph) (n : String) : Bool := hasKey g.nodes n

def nodeAttrs (g : DiGraph) (n : String) : Option Attrs := lookupKey g.nodes n

def hasEdge (g : DiGraph) (u v : String) : Bool := hasKey g.edges (u, v)

def edgeAttrs (g : DiGraph) (u v : String) : Option Attrs :=
  lookupKey g.edges (u, v)

/-- `G.add_node(n, **attrs)`: update the attribute dict of an existing node,
or append a fresh node carrying exactly `attrs`. -/
def add_node (g : DiGraph) (n : String) (attrs : Attrs) : DiGraph :=
  if hasNode g n then
    { g with nodes := replaceKey g.nodes n (fun d => dictUpdate d attrs) }
  else
    { g with nodes := g.nodes ++ [(n, attrs)] }

/-- NetworkX `add_edge` creates a missing endpoint as a node with an empty
attribute dict. -/
def ensureNode (g : DiGraph) (n : String) : DiGraph :=
  if hasNode g n then g else { g with nodes := g.nodes ++ [(n, [])] }

/-- `G.add_edge(u, v, **attrs)`: silently create missing endpoints, then
update the attribute dict of an existing `(u, v)` edge or append a fresh
one. -/
def add_edge (g : DiGraph) (u v : String) (attrs : Attrs) : DiGraph :=
  let g1 := (g.ensureNode u).ensureNode v
  if hasEdge g1 u v then
    { g1 with edges := replaceKey g1.edges (u, v) (fun d => dictUpdate d attrs) }
  else
    { g1 with edges := g1.edges ++ [((u, v), attrs)] }

/-- `graph.number_of_nodes()` (the `node_count` property). -/
def node_count (g : DiGraph) : Nat := g.nodes.length

/-- `graph.number_of_edges()` (the `edge_count` property). -/
def edge_count (g : DiGraph) : Nat := g.edges.length

/-- The `relation` attribute of the `(u, v)` edge, when that edge exists. -/
def edgeRel (g : DiGraph) (u v : String) : Option PyVal :=
  (g.edgeAttrs u v).bind fun d => dictGet d "relation"

/-- The `weight` attribute of the `(u, v)` edge, when that edge exists. -/
def edgeWeight (g : DiGraph) (u v : String) : Option PyVal :=
  (g.edgeAttrs u v).bind fun d => dictGet d "weight"

/-- Well-formedness: node ids are pairwise distinct, there is at most one
edge per ordered `(source, target)` pair, and every edge endpoint exists as
a node.  Every graph reachable from `DiGraph.empty` through the store
operations satisfies this. -/
def WF (g : DiGraph) : Prop :=
  g.nodeIds.Nodup ∧ g.edgeKeys.Nodup ∧
    ∀ k ∈ g.edgeKeys, hasNode g k.1 = true ∧ hasNode g k.2 = true

instance (g : DiGraph) : Decidable g.WF := by
  unfold WF
  infer_instance

end DiGraph

/-! ### Entity schemas (`chasm/models/schema.py`)

Pydantic models; `model_dump(mode="json")` serialises every field (absent
optionals become `null`, enumerations become their string value) in field
declaration order. -/

inductive ComponentCategory where
  | mechanical | electrical | firmware | packaging | unknown
deriving DecidableEq

def ComponentCategory.value : ComponentCategory → String
  | .mechanical => "Mechanical"
  | .electrical => "Electrical"
  | .firmware => "Firmware"
  | .packaging => "Packaging"
  | .unknown => "Unknown"

inductive SourceType where
  | website | reddit | review | employee_interview
deriving DecidableEq

def SourceType.value : SourceType → String
  | .website => "Website"
  | .reddit => "Reddit"
  | .review => "Review"
  | .employee_interview => "Employee_Interview"

def optStr : Option String → PyVal
  | none => .vnull
  | some s => .vstr s

structure Product where
  id : String
  name : String
  description : Option String
  url : Option String
deriving DecidableEq

def Product.model_dump (p : Product) : Attrs :=
  [("id", .vstr p.id), ("name", .vstr p.name),
   ("description", optStr p.description), ("url", optStr p.url)]

structure Component where
  id : String
  name : String
  category : ComponentCategory
deriving DecidableEq

def Component.model_dump (c : Component) : Attrs :=
  [("id", .vstr c.id), ("name", .vstr c.name),
   ("category", .vstr c.category.value)]

structure Source where
  id : String
  type : SourceType
  raw_text : String
  url : Option String
deriving DecidableEq

def Source.model_dump (s : Source) : Attrs :=
  [("id", .vstr s.id), ("type", .vstr s.type.value),
   ("raw_text", .vstr s.raw_text), ("url", optStr s.url)]

structure Insight where
  id : String
  summary : String
  sentiment : ℚ
  tags : List String
  embedding : Option (List ℚ)
deriving DecidableEq

def Insight.model_dump (i : Insight) : Attrs :=
  [("id", .vstr i.id), ("summary", .vstr i.summary),
   ("sentiment", .vnum i.sentiment), ("tags", .vstrList i.tags),
   ("embedding", match i.embedding with
                 | none => .vnull
                 | some v => .vnumList v)]

/-- Pydantic validation at `Insight` construction: the `sentiment` field is
declared with `ge=-1.0, le=1.0`, so building an `Insight` with a sentiment
outside `[-1, 1]` raises a `ValidationError` (modelled as `none`); any value
inside the range is accepted. -/
def Insight.validate (id summary : String) (sentiment : ℚ) (tags : List String)
    (embedding : Option (List ℚ)) : Option Insight :=
  if -1 ≤ sentiment ∧ sentiment ≤ 1 then
    some ⟨id, summary, sentiment, tags, embedding⟩
  else
    none

/-! ### Store operations (`ChasmGraph`, `chasm/graph/builder.py`) -/

/-- `ChasmGraph.add_product`: dump the entity, tag it with
`node_type = "Product"`, upsert the node. -/
def add_product (g : DiGraph) (p : Product) : DiGraph :=
  g.add_node p.id (dictSet p.model_dump "node_type" (.vstr "Product"))

/-- `ChasmGraph.add_component`: upsert the Component node, then add the
`HAS_COMPONENT` edge from `product_id` (whose existence is not checked). -/
def add_component (g : DiGraph) (c : Component) (product_id : String) : DiGraph :=
  (g.add_node c.id (dictSet c.model_dump "node_type" (.vstr "Component"))).add_edge
    product_id c.id [("relation", .vstr "HAS_COMPONENT")]

/-- `ChasmGraph.add_source`. -/
def add_source (g : DiGraph) (s : Source) : DiGraph :=
  g.add_node s.id (dictSet s.model_dump "node_type" (.vstr "Source"))

/-- `ChasmGraph.add_insight`: upsert the Insight node, then add
`YIELDS(source_id → insight.id)` and `ABOUT(insight.id → target_id)`; neither
referenced id is checked for existence. -/
def add_insight (g : DiGraph) (i : Insight) (source_id target_id : String) :
    DiGraph :=
  ((g.add_node i.id (dictSet i.model_dump "node_type" (.vstr "Insight"))).add_edge
      source_id i.id [("relation", .vstr "YIELDS")]).add_edge
    i.id target_id [("relation", .vstr "ABOUT")]

/-- `ChasmGraph.get_product_hierarchy`: the attribute snapshot of every
target of an outgoing `HAS_COMPONENT` edge of `product_id` (single hop). -/
def get_product_hierarchy (g : DiGraph) (product_id : String) : List Attrs :=
  (g.edges.filter fun e => decide (e.1.1 = product_id)).filterMap fun e =>
    if dictGet e.2 "relation" = some (.vstr "HAS_COMPONENT") then
      g.nodeAttrs e.1.2
    else
      none

/-! ### Persistence codec (`export_graph` / `chasm/graph/persistence.py`)

`export_graph` writes `json_graph.node_link_data(self.graph)` to disk;
`load_graph_from_disk` parses the file and rebuilds the graph with
`json_graph.node_link_graph`, which adds all listed nodes and then all
listed edges to a fresh `DiGraph`.  File I/O and JSON parsing are modelled
by a `FileState`: the snapshot file is missing, fails to parse, or holds a
node-link document. -/

structure NodeLinkDoc where
  nodes : List (String × Attrs)
  links : List ((String × String) × Attrs)
deriving DecidableEq

/-- `json_graph.node_link_data`: list the nodes and the edges with their
attributes. -/
def node_link_data (g : DiGraph) : NodeLinkDoc := ⟨g.nodes, g.edges⟩

/-- `json_graph.node_link_graph`: rebuild a fresh `DiGraph` by adding every
listed node and then every listed edge. -/
def node_link_graph (d : NodeLinkDoc) : DiGraph :=
  d.links.foldl (fun g e => g.add_edge e.1.1 e.1.2 e.2)
    (d.nodes.foldl (fun g p => g.add_node p.1 p.2) DiGraph.empty)

/-- State of the snapshot file at `settings.export_path`. -/
inductive FileState where
  | missing
  | corrupt
  | valid (d : NodeLinkDoc)

/-- `load_graph_from_disk(graph)`: if the file does not exist, do nothing
(the caller's store is left as passed in — at process start that is the
fresh empty singleton); if reading or parsing fails, the exception is caught,
logged, and the store is likewise left as passed in; otherwise replace
`graph.graph` with the rebuilt node-link graph.  The function is total: no
exception escapes to the caller. -/
def load_graph_from_disk (g : DiGraph) (f : FileState) : DiGraph :=
  match f with
  | .missing => g
  | .corrupt => g
  | .valid d => node_link_graph d

/-! ### Semantic linker (`VectorEngine.link_semantic_matches`,
`chasm/vector/engine.py`)

The engine collects, in node-iteration order, every node whose `node_type`
is `"Insight"` and whose `embedding` attribute is truthy, computes the
pairwise cosine-similarity matrix of the collected embedding vectors with
scikit-learn, and for every index pair `i < j` with `matrix[i, j] >=
threshold` adds a `SEMANTIC_MATCH` edge from the `i`-th to the `j`-th
collected id, weighted by the score rounded to 4 decimal places.

`matrix[i, j]` is a pure function of the two collected vectors, so the
floating-point kernel is modelled by an arbitrary similarity function
`sim : List ℚ → List ℚ → ℚ`; every theorem below holds for all `sim`. -/

/-- `Settings.similarity_threshold` (`chasm/core/config.py`): the
process-wide default threshold, `0.75`. -/
def similarity_threshold : ℚ := 3 / 4

/-- Python `round(x, 4)` (modelled on rationals). -/
def roundTo4 (q : ℚ) : ℚ := (round (q * 10000) : ℤ) / 10000

/-- The embedding vector stored in an attribute value. -/
def PyVal.toVec : PyVal → List ℚ
  | .vnumList l => l
  | _ => []

/-- Collect `(node_id, embedding)` for every Insight node with a truthy
embedding, in node-iteration (insertion) order. -/
def collectInsights (g : DiGraph) : List (String × List ℚ) :=
  g.nodes.filterMap fun p =>
    if dictGet p.2 "node_type" = some (.vstr "Insight") ∧
        optTruthy (dictGet p.2 "embedding") = true then
      some (p.1, ((dictGet p.2 "embedding").getD .vnull).toVec)
    else
      none

/-- Attributes of a freshly written `SEMANTIC_MATCH` edge. -/
def semAttrs (score : ℚ) : Attrs :=
  [("relation", .vstr "SEMANTIC_MATCH"), ("weight", .vnum (roundTo4 score))]

/-- Inner loop `for j in range(i + 1, n)`: link the fixed insight `p`
against each later insight, accumulating the graph and the added-edge
count. -/
def linkInner (sim : List ℚ → List ℚ → ℚ) (t : ℚ) (p : String × List ℚ) :
    List (String × List ℚ) → DiGraph → DiGraph × Nat
  | [], g => (g, 0)
  | q :: rest, g =>
    let score := sim p.2 q.2
    let step : DiGraph × Nat :=
      if t ≤ score then (g.add_edge p.1 q.1 (semAttrs score), 1) else (g, 0)
    let next := linkInner sim t p rest step.1
    (next.1, step.2 + next.2)

/-- Outer loop `for i in range(n)`. -/
def linkOuter (sim : List ℚ → List ℚ → ℚ) (t : ℚ) :
    List (String × List ℚ) → DiGraph → DiGraph × Nat
  | [], g => (g, 0)
  | p :: rest, g =>
    let inner := linkInner sim t p rest g
    let outer := linkOuter sim t rest inner.1
    (outer.1, inner.2 + outer.2)

/-- `VectorEngine.link_semantic_matches(nx_graph, threshold=None)`: default
the threshold to the configured value, collect the embedded insights, return
0 on fewer than two, otherwise run the pairwise loop.  Returns the mutated
graph together with the returned count. -/
def link_semantic_matches (sim : List ℚ → List ℚ → ℚ) (g : DiGraph)
    (threshold : Option ℚ) : DiGraph × Nat :=
  let t := threshold.getD similarity_threshold
  let pairs := collectInsights g
  if pairs.length < 2 then (g, 0) else linkOuter sim t pairs g
/-! ### Derived notions used in the statements -/

/-- The attribute dictionary written for a Product node
(`attrs = product.model_dump(); attrs["node_type"] = "Product"`). -/
def productAttrs (p : Product) : Attrs :=
  dictSet p.model_dump "node_type" (.vstr "Product")

/-- The attribute dictionary written for an Insight node. -/
def insightAttrs (i : Insight) : Attrs :=
  dictSet i.model_dump "node_type" (.vstr "Insight")

/-- The attribute dictionary written for a Component node. -/
def componentAttrs (c : Component) : Attrs :=
  dictSet c.model_dump "node_type" (.vstr "Component")

/-- The `k` attribute of node `nid`, when the node exists and carries it. -/
def nodeAttr (g : DiGraph) (nid k : String) : Option PyVal :=
  (g.nodeAttrs nid).bind fun d => dictGet d k

/-- Whether node `nid` currently carries a truthy `embedding` attribute —
the condition under which the linker collects it. -/
def embeddingPresent (g : DiGraph) (nid : String) : Bool :=
  optTruthy (nodeAttr g nid "embedding")

/-- Node-id consistency: a node's `id` attribute, when present, equals its
graph key.  Every builder-written node satisfies this (each `model_dump`
stores the entity id under `"id"` and the node is keyed by that same id),
and implicitly created endpoint nodes carry no attributes at all. -/
def DiGraph.IdConsistent (g : DiGraph) : Prop :=
  ∀ p ∈ g.nodes, dictGet p.2 "id" = none ∨ dictGet p.2 "id" = some (.vstr p.1)

instance (g : DiGraph) : Decidable g.IdConsistent := by
  unfold DiGraph.IdConsistent
  infer_instance

/-- All ordered pairs `(l[i], l[j])` with `i < j`, in the iteration order of
the linker's nested loops. -/
def allPairs {α : Type} : List α → List (α × α)
  | [] => []
  | x :: xs => xs.map (fun y => (x, y)) ++ allPairs xs

/-- The qualifying pairs of a collected insight list: those scoring at or
above the threshold, in processing order. -/
def qualPairs (sim : List ℚ → List ℚ → ℚ) (t : ℚ)
    (ps : List (String × List ℚ)) :
    List ((String × List ℚ) × (String × List ℚ)) :=
  (allPairs ps).filter fun pq => decide (t ≤ sim pq.1.2 pq.2.2)

/-- Write the SEMANTIC_MATCH edge of one qualifying pair. -/
def addMatch (sim : List ℚ → List ℚ → ℚ) (g : DiGraph)
    (pq : (String × List ℚ) × (String × List ℚ)) : DiGraph :=
  g.add_edge pq.1.1 pq.2.1 (semAttrs (sim pq.1.2 pq.2.2))

/-- The ordered-pair keys written by a run over pair list `L`. -/
def keysOf (L : List ((String × List ℚ) × (String × List ℚ))) :
    List (String × String) :=
  L.map fun pq => (pq.1.1, pq.2.1)

/-! ### Concrete fixtures

Small concrete entities and graphs used to instantiate the theorems. -/

def fixProduct : Product :=
  ⟨"prod-001", "DJI Mavic 3 Pro", some "Triple-camera drone", none⟩

def fixProduct2 : Product :=
  ⟨"prod-001", "DJI Mavic 3 Pro v2", none, some "https://www.dji.com"⟩

def fixComponent : Component := ⟨"comp-001", "Battery", .electrical⟩

def fixSource : Source := ⟨"src-001", .reddit, "overheats after 10 min", none⟩

def fixInsight : Insight :=
  ⟨"ins-001", "Device overheats", -4/5, ["heat"], some [1, 0]⟩

/-- The same insight id re-extracted later, without an embedding. -/
def fixInsightNoEmb : Insight :=
  ⟨"ins-001", "Device overheats", -4/5, ["heat"], none⟩

def fixInsight2 : Insight := ⟨"ins-002", "Gets very hot", -1/2, [], some [1, 1]⟩

/-- A Product entity whose id collides with the fixture insight's id. -/
def fixImposter : Product := ⟨"ins-001", "Imposter", none, none⟩

/-- Product, component and source only. -/
def fixBase : DiGraph :=
  add_source (add_component (add_product .empty fixProduct) fixComponent
    "prod-001") fixSource

/-- The fixture graph with two embedded insights. -/
def fixGraph : DiGraph :=
  add_insight (add_insight fixBase fixInsight "src-001" "comp-001")
    fixInsight2 "src-001" "comp-001"

/-- A concrete stand-in similarity kernel (dot product) for instantiating
the `sim`-parametric linker theorems. -/
def dotSim (u v : List ℚ) : ℚ := (List.zipWith (fun a b => a * b) u v).sum

/-- A constant similarity kernel scoring every pair 1. -/
def oneSim : List ℚ → List ℚ → ℚ := fun _ _ => 1

/-! ### Theorems: dictionaries and primitive graph mutations -/

section KeyedList

variable {κ β : Type} [DecidableEq κ]

theorem lookupKey_nil (k : κ) : lookupKey ([] : List (κ × β)) k = none := rfl

theorem lookupKey_cons (p : κ × β) (l : List (κ × β)) (k : κ) :
    lookupKey (p :: l) k = if p.1 = k then some p.2 else lookupKey l k := by
  by_cases h : p.1 = k <;> simp [lookupKey, List.find?, h]

theorem hasKey_cons (p : κ × β) (l : List (κ × β)) (k : κ) :
    hasKey (p :: l) k = (decide (p.1 = k) || hasKey l k) := by
  simp [hasKey]

theorem hasKey_iff_lookupKey_isSome (l : List (κ × β)) (k : κ) :
    hasKey l k = (lookupKey l k).isSome := by
  induction l with
  | nil => rfl
  | cons p l ih =>
    rw [hasKey_cons, lookupKey_cons]
    by_cases h : p.1 = k <;> simp [h, ih]

theorem lookupKey_eq_none_of_hasKey_false {l : List (κ × β)} {k : κ}
    (h : hasKey l k = false) : lookupKey l k = none := by
  rw [hasKey_iff_lookupKey_isSome] at h
  exact Option.not_isSome_iff_eq_none.mp (by simp [h])

theorem hasKey_true_iff_mem_keys {l : List (κ × β)} {k : κ} :
    hasKey l k = true ↔ k ∈ l.map Prod.fst := by
  constructor
  · intro h
    rcases List.any_eq_true.mp h with ⟨p, hp, hd⟩
    exact List.mem_map.mpr ⟨p, hp, of_decide_eq_true hd⟩
  · intro h
    rcases List.mem_map.mp h with ⟨p, hp, hfst⟩
    exact List.any_eq_true.mpr ⟨p, hp, decide_eq_true hfst⟩

theorem hasKey_false_iff_not_mem_keys {l : List (κ × β)} {k : κ} :
    hasKey l k = false ↔ k ∉ l.map Prod.fst := by
  constructor
  · intro h hm
    have ht := hasKey_true_iff_mem_keys.mpr hm
    rw [h] at ht
    exact Bool.false_ne_true ht
  · intro h
    cases hb : hasKey l k
    · rfl
    · exact absurd (hasKey_true_iff_mem_keys.mp hb) h

theorem lookupKey_append (l₁ l₂ : List (κ × β)) (k : κ) :
    lookupKey (l₁ ++ l₂) k =
      match lookupKey l₁ k with
      | some v => some v
      | none => lookupKey l₂ k := by
  induction l₁ with
  | nil => simp [lookupKey_nil]
  | cons p l ih =>
    rw [List.cons_append, lookupKey_cons, lookupKey_cons]
    by_cases h : p.1 = k <;> simp [h, ih]

theorem keys_replaceKey (l : List (κ × β)) (k : κ) (f : β → β) :
    (replaceKey l k f).map Prod.fst = l.map Prod.fst := by
  induction l with
  | nil => rfl
  | cons p l ih =>
    simp only [replaceKey, List.map_cons] at *
    by_cases h : p.1 = k <;> simp [h, ih]

theorem length_replaceKey (l : List (κ × β)) (k : κ) (f : β → β) :
    (replaceKey l k f).length = l.length := by
  simp [replaceKey]

theorem lookupKey_replaceKey_self (l : List (κ × β)) (k : κ) (f : β → β) :
    lookupKey (replaceKey l k f) k = (lookupKey l k).map f := by
  induction l with
  | nil => rfl
  | cons p l ih =>
    simp only [replaceKey, List.map_cons]
    by_cases h : p.1 = k
    · rw [show (if p.1 = k then (p.1, f p.2) else p) = (p.1, f p.2) by simp [h]]
      rw [lookupKey_cons, lookupKey_cons]
      simp [h]
    · rw [show (if p.1 = k then (p.1, f p.2) else p) = p by simp [h]]
      rw [lookupKey_cons, lookupKey_cons]
      simp only [h, if_false]
      exact ih

theorem lookupKey_replaceKey_ne (l : List (κ × β)) (k k' : κ) (f : β → β)
    (h : k' ≠ k) : lookupKey (replaceKey l k f) k' = lookupKey l k' := by
  induction l with
  | nil => rfl
  | cons p l ih =>
    simp only [replaceKey, List.map_cons]
    by_cases hp : p.1 = k
    · rw [show (if p.1 = k then (p.1, f p.2) else p) = (p.1, f p.2) by simp [hp]]
      rw [lookupKey_cons, lookupKey_cons]
      have hne : ¬ p.1 = k' := fun hc => h (hc.symm.trans hp)
      simp only [hne, if_false]
      exact ih
    · rw [show (if p.1 = k then (p.1, f p.2) else p) = p by simp [hp]]
      rw [lookupKey_cons, lookupKey_cons]
      by_cases hp' : p.1 = k'
      · simp [hp']
      · simp only [hp', if_false]
        exact ih

end KeyedList

theorem dictGet_dictSet_self (d : Attrs) (k : String) (v : PyVal) :
    dictGet (dictSet d k v) k = some v := by
  unfold dictGet dictSet
  by_cases h : hasKey d k
  · rw [if_pos h, lookupKey_replaceKey_self]
    rw [hasKey_iff_lookupKey_isSome] at h
    rcases Option.isSome_iff_exists.mp h with ⟨v', hv⟩
    simp [hv]
  · rw [if_neg h, lookupKey_append]
    rw [lookupKey_eq_none_of_hasKey_false (Bool.of_not_eq_true h)]
    simp [lookupKey_cons]

theorem dictGet_dictSet_ne (d : Attrs) (k k' : String) (v : PyVal)
    (h : k' ≠ k) : dictGet (dictSet d k v) k' = dictGet d k' := by
  unfold dictGet dictSet
  by_cases hk : hasKey d k
  · rw [if_pos hk, lookupKey_replaceKey_ne _ _ _ _ h]
  · rw [if_neg hk, lookupKey_append]
    rcases h' : lookupKey d k' with _ | v'
    · simp [lookupKey_cons, lookupKey_nil, Ne.symm h]
    · simp

theorem dictUpdate_nil (d : Attrs) : dictUpdate d [] = d := rfl

theorem dictUpdate_cons (d : Attrs) (p : String × PyVal) (u : Attrs) :
    dictUpdate d (p :: u) = dictUpdate (dictSet d p.1 p.2) u := rfl

theorem dictGet_dictUpdate_of_none {u : Attrs} {k : String}
    (h : dictGet u k = none) (d : Attrs) :
    dictGet (dictUpdate d u) k = dictGet d k := by
  induction u generalizing d with
  | nil => rfl
  | cons p u ih =>
    rw [dictUpdate_cons]
    have hk := h
    unfold dictGet at hk
    rw [lookupKey_cons] at hk
    by_cases hp : p.1 = k
    · rw [if_pos hp] at hk
      exact absurd hk (by simp)
    · rw [if_neg hp] at hk
      rw [ih hk, dictGet_dictSet_ne _ _ _ _ (fun hc => hp hc.symm)]

theorem dictGet_dictUpdate_of_some {u : Attrs} {k : String} {v : PyVal}
    (hu : (u.map Prod.fst).Nodup) (h : dictGet u k = some v) (d : Attrs) :
    dictGet (dictUpdate d u) k = some v := by
  induction u generalizing d with
  | nil => exact absurd h (by simp [dictGet, lookupKey_nil])
  | cons p u ih =>
    rw [dictUpdate_cons]
    have hk := h
    unfold dictGet at hk
    rw [lookupKey_cons] at hk
    rw [List.map_cons, List.nodup_cons] at hu
    by_cases hp : p.1 = k
    · rw [if_pos hp] at hk
      have hnone : dictGet u k = none := by
        unfold dictGet
        rw [lookupKey_eq_none_of_hasKey_false]
        exact hasKey_false_iff_not_mem_keys.mpr (hp ▸ hu.1)
      rw [dictGet_dictUpdate_of_none hnone, ← hp, dictGet_dictSet_self]
      exact congrArg some (Option.some_injective _ hk).symm ▸ hk
    · rw [if_neg hp] at hk
      exact ih hu.2 hk _

/-! ### Behaviour of the primitive graph mutations -/

theorem hasKey_append_single {κ β : Type} [DecidableEq κ]
    (l : List (κ × β)) (n : κ) (b : β) (m : κ) :
    hasKey (l ++ [(n, b)]) m = (hasKey l m || decide (n = m)) := by
  simp [hasKey, List.any_append]

theorem hasKey_replaceKey {κ β : Type} [DecidableEq κ]
    (l : List (κ × β)) (k : κ) (f : β → β) (m : κ) :
    hasKey (replaceKey l k f) m = hasKey l m := by
  cases hb : hasKey l m
  · rw [hasKey_false_iff_not_mem_keys] at hb
    apply hasKey_false_iff_not_mem_keys.mpr
    rw [keys_replaceKey]
    exact hb
  · apply hasKey_true_iff_mem_keys.mpr
    rw [keys_replaceKey]
    exact hasKey_true_iff_mem_keys.mp hb

theorem replaceKey_id {κ β : Type} [DecidableEq κ] (l : List (κ × β)) (k : κ) :
    replaceKey l k (fun b => b) = l := by
  unfold replaceKey
  have h : (fun p : κ × β => if p.1 = k then (p.1, p.2) else p) = id := by
    funext p
    by_cases h : p.1 = k
    · rw [if_pos h]
      rfl
    · rw [if_neg h]
      rfl
  rw [h, List.map_id]

namespace DiGraph

theorem hasNode_iff_mem (g : DiGraph) (m : String) :
    g.hasNode m = true ↔ m ∈ g.nodeIds :=
  hasKey_true_iff_mem_keys

theorem edges_add_node (g : DiGraph) (n : String) (a : Attrs) :
    (g.add_node n a).edges = g.edges := by
  unfold add_node
  split <;> rfl

theorem nodeIds_add_node (g : DiGraph) (n : String) (a : Attrs) :
    (g.add_node n a).nodeIds =
      if g.hasNode n then g.nodeIds else g.nodeIds ++ [n] := by
  unfold add_node nodeIds
  split
  · simpa using keys_replaceKey g.nodes n _
  · simp

theorem node_count_add_node (g : DiGraph) (n : String) (a : Attrs) :
    (g.add_node n a).node_count =
      if g.hasNode n then g.node_count else g.node_count + 1 := by
  unfold add_node node_count
  split
  · simpa using length_replaceKey g.nodes n _
  · simp

theorem hasNode_add_node (g : DiGraph) (n : String) (a : Attrs) (m : String) :
    (g.add_node n a).hasNode m = (g.hasNode m || decide (n = m)) := by
  unfold add_node
  split
  · rename_i h
    show hasKey (replaceKey g.nodes n fun d => dictUpdate d a) m = _
    rw [hasKey_replaceKey]
    by_cases hm : n = m
    · subst hm
      simp [show hasKey g.nodes n = true from h]
    · rw [decide_eq_false hm, Bool.or_false]
      rfl
  · show hasKey (g.nodes ++ [(n, a)]) m = _
    exact hasKey_append_single g.nodes n a m

theorem nodeAttrs_add_node_fresh {g : DiGraph} {n : String}
    (h : g.hasNode n = false) (a : Attrs) :
    (g.add_node n a).nodeAttrs n = some a := by
  unfold add_node
  rw [if_neg (by simp [h])]
  show lookupKey (g.nodes ++ [(n, a)]) n = some a
  rw [lookupKey_append, lookupKey_eq_none_of_hasKey_false h]
  simp [lookupKey_cons]

theorem nodeAttrs_add_node_exists {g : DiGraph} {n : String} {d : Attrs}
    (h : g.nodeAttrs n = some d) (a : Attrs) :
    (g.add_node n a).nodeAttrs n = some (dictUpdate d a) := by
  have hn : g.hasNode n = true := by
    show hasKey g.nodes n = true
    rw [hasKey_iff_lookupKey_isSome, show lookupKey g.nodes n = some d from h]
    rfl
  unfold add_node
  rw [if_pos hn]
  show lookupKey (replaceKey g.nodes n fun d => dictUpdate d a) n =
    some (dictUpdate d a)
  rw [lookupKey_replaceKey_self, show lookupKey g.nodes n = some d from h]
  rfl

theorem nodeAttrs_add_node_ne {g : DiGraph} {n m : String} (a : Attrs)
    (h : m ≠ n) : (g.add_node n a).nodeAttrs m = g.nodeAttrs m := by
  unfold add_node
  split
  · show lookupKey (replaceKey g.nodes n fun d => dictUpdate d a) m =
      lookupKey g.nodes m
    exact lookupKey_replaceKey_ne g.nodes n m _ h
  · show lookupKey (g.nodes ++ [(n, a)]) m = lookupKey g.nodes m
    rw [lookupKey_append]
    rcases h' : lookupKey g.nodes m with _ | d
    · simp [lookupKey_cons, lookupKey_nil, Ne.symm h]
    · simp

theorem edges_ensureNode (g : DiGraph) (n : String) :
    (g.ensureNode n).edges = g.edges := by
  unfold ensureNode
  split <;> rfl

theorem ensureNode_of_hasNode {g : DiGraph} {n : String}
    (h : g.hasNode n = true) : g.ensureNode n = g := by
  unfold ensureNode
  rw [if_pos h]

theorem nodeIds_ensureNode (g : DiGraph) (n : String) :
    (g.ensureNode n).nodeIds =
      if g.hasNode n then g.nodeIds else g.nodeIds ++ [n] := by
  unfold ensureNode nodeIds
  split <;> simp

theorem hasNode_ensureNode (g : DiGraph) (n m : String) :
    (g.ensureNode n).hasNode m = (g.hasNode m || decide (n = m)) := by
  show hasKey _ _ = _
  unfold ensureNode
  split
  · rename_i h
    by_cases hm : n = m
    · subst hm
      simp [show g.hasNode n = true from h, show hasKey g.nodes n = true from h]
    · simp [hm]
      rfl
  · exact hasKey_append_single g.nodes n [] m

theorem hasNode_ensureNode_self (g : DiGraph) (n : String) :
    (g.ensureNode n).hasNode n = true := by
  rw [hasNode_ensureNode]
  simp

theorem nodeAttrs_ensureNode_of_some {g : DiGraph} {m : String} {d : Attrs}
    (n : String) (h : g.nodeAttrs m = some d) :
    (g.ensureNode n).nodeAttrs m = some d := by
  unfold ensureNode
  split
  · exact h
  · show lookupKey (g.nodes ++ [(n, [])]) m = some d
    rw [lookupKey_append]
    rw [show lookupKey g.nodes m = some d from h]

theorem nodeAttrs_ensureNode_ne {g : DiGraph} {n m : String} (h : m ≠ n) :
    (g.ensureNode n).nodeAttrs m = g.nodeAttrs m := by
  unfold ensureNode
  split
  · rfl
  · show lookupKey (g.nodes ++ [(n, [])]) m = lookupKey g.nodes m
    rw [lookupKey_append]
    rcases h' : lookupKey g.nodes m with _ | d
    · simp [lookupKey_cons, lookupKey_nil, Ne.symm h]
    · simp

theorem nodeAttrs_ensureNode_fresh {g : DiGraph} {n : String}
    (h : g.hasNode n = false) : (g.ensureNode n).nodeAttrs n = some [] := by
  unfold ensureNode
  rw [if_neg (by simp [h])]
  show lookupKey (g.nodes ++ [(n, [])]) n = some []
  rw [lookupKey_append, lookupKey_eq_none_of_hasKey_false h]
  simp [lookupKey_cons]

theorem node_count_ensureNode (g : DiGraph) (n : String) :
    (g.ensureNode n).node_count =
      if g.hasNode n then g.node_count else g.node_count + 1 := by
  unfold ensureNode node_count
  split <;> simp

theorem add_edge_def (g : DiGraph) (u v : String) (a : Attrs) :
    g.add_edge u v a =
      (if ((g.ensureNode u).ensureNode v).hasEdge u v then
        { (g.ensureNode u).ensureNode v with
            edges := replaceKey ((g.ensureNode u).ensureNode v).edges (u, v)
              (fun d => dictUpdate d a) }
      else
        { (g.ensureNode u).ensureNode v with
            edges := ((g.ensureNode u).ensureNode v).edges ++ [((u, v), a)] }) :=
  rfl

theorem edges_ensured (g : DiGraph) (u v : String) :
    ((g.ensureNode u).ensureNode v).edges = g.edges := by
  rw [edges_ensureNode, edges_ensureNode]

theorem hasEdge_ensured (g : DiGraph) (u v x y : String) :
    ((g.ensureNode u).ensureNode v).hasEdge x y = g.hasEdge x y := by
  show hasKey ((g.ensureNode u).ensureNode v).edges (x, y) =
    hasKey g.edges (x, y)
  rw [edges_ensured]

theorem edges_add_edge (g : DiGraph) (u v : String) (a : Attrs) :
    (g.add_edge u v a).edges =
      if g.hasEdge u v then
        replaceKey g.edges (u, v) (fun d => dictUpdate d a)
      else
        g.edges ++ [((u, v), a)] := by
  rw [add_edge_def]
  by_cases hb : g.hasEdge u v = true
  · rw [if_pos ((hasEdge_ensured g u v u v).trans hb), if_pos hb]
    show replaceKey ((g.ensureNode u).ensureNode v).edges (u, v)
        (fun d => dictUpdate d a) =
      replaceKey g.edges (u, v) (fun d => dictUpdate d a)
    rw [edges_ensured]
  · rw [if_neg (by rw [hasEdge_ensured]; exact hb), if_neg hb]
    show ((g.ensureNode u).ensureNode v).edges ++ [((u, v), a)] =
      g.edges ++ [((u, v), a)]
    rw [edges_ensured]

theorem nodes_add_edge (g : DiGraph) (u v : String) (a : Attrs) :
    (g.add_edge u v a).nodes = ((g.ensureNode u).ensureNode v).nodes := by
  rw [add_edge_def]
  split <;> rfl

theorem nodes_add_edge_of_hasNode {g : DiGraph} {u v : String} (a : Attrs)
    (hu : g.hasNode u = true) (hv : g.hasNode v = true) :
    (g.add_edge u v a).nodes = g.nodes := by
  rw [nodes_add_edge, ensureNode_of_hasNode hu, ensureNode_of_hasNode hv]

theorem nodeAttrs_add_edge_of_some {g : DiGraph} {m : String} {d : Attrs}
    (u v : String) (a : Attrs) (h : g.nodeAttrs m = some d) :
    (g.add_edge u v a).nodeAttrs m = some d := by
  show lookupKey (g.add_edge u v a).nodes m = some d
  rw [nodes_add_edge]
  exact nodeAttrs_ensureNode_of_some v (nodeAttrs_ensureNode_of_some u h)

theorem hasNode_add_edge (g : DiGraph) (u v : String) (a : Attrs) (m : String) :
    (g.add_edge u v a).hasNode m =
      (g.hasNode m || decide (u = m) || decide (v = m)) := by
  show hasKey (g.add_edge u v a).nodes m = _
  rw [nodes_add_edge,
    show hasKey ((g.ensureNode u).ensureNode v).nodes m =
      ((g.ensureNode u).ensureNode v).hasNode m from rfl,
    hasNode_ensureNode, hasNode_ensureNode]

theorem edgeAttrs_add_edge_fresh {g : DiGraph} {u v : String}
    (h : g.hasEdge u v = false) (a : Attrs) :
    (g.add_edge u v a).edgeAttrs u v = some a := by
  show lookupKey (g.add_edge u v a).edges (u, v) = some a
  rw [edges_add_edge, if_neg (by simp [h]), lookupKey_append,
    lookupKey_eq_none_of_hasKey_false h]
  simp [lookupKey_cons]

theorem edgeAttrs_add_edge_exists {g : DiGraph} {u v : String} {d : Attrs}
    (h : g.edgeAttrs u v = some d) (a : Attrs) :
    (g.add_edge u v a).edgeAttrs u v = some (dictUpdate d a) := by
  have hb : g.hasEdge u v = true := by
    show hasKey g.edges (u, v) = true
    rw [hasKey_iff_lookupKey_isSome,
      show lookupKey g.edges (u, v) = some d from h]
    rfl
  show lookupKey (g.add_edge u v a).edges (u, v) = some (dictUpdate d a)
  rw [edges_add_edge, if_pos hb, lookupKey_replaceKey_self,
    show lookupKey g.edges (u, v) = some d from h]
  rfl

theorem edgeAttrs_add_edge_ne {g : DiGraph} {u v x y : String} (a : Attrs)
    (h : (x, y) ≠ (u, v)) :
    (g.add_edge u v a).edgeAttrs x y = g.edgeAttrs x y := by
  show lookupKey (g.add_edge u v a).edges (x, y) = lookupKey g.edges (x, y)
  rw [edges_add_edge]
  split
  · exact lookupKey_replaceKey_ne g.edges (u, v) (x, y) _ h
  · rw [lookupKey_append]
    rcases h' : lookupKey g.edges (x, y) with _ | d
    · simp [lookupKey_cons, lookupKey_nil, Ne.symm h]
    · simp

theorem hasEdge_add_edge (g : DiGraph) (u v : String) (a : Attrs)
    (x y : String) :
    (g.add_edge u v a).hasEdge x y =
      (g.hasEdge x y || decide ((u, v) = (x, y))) := by
  show hasKey (g.add_edge u v a).edges (x, y) = _
  rw [edges_add_edge]
  split
  · rename_i hb
    rw [hasKey_replaceKey]
    by_cases hxy : (u, v) = (x, y)
    · rw [← hxy, show hasKey g.edges (u, v) = true from hb]
      simp
    · rw [decide_eq_false hxy, Bool.or_false]
      rfl
  · exact hasKey_append_single g.edges (u, v) a (x, y)

theorem hasEdge_add_edge_self (g : DiGraph) (u v : String) (a : Attrs) :
    (g.add_edge u v a).hasEdge u v = true := by
  rw [hasEdge_add_edge]
  simp

theorem edge_count_add_edge (g : DiGraph) (u v : String) (a : Attrs) :
    (g.add_edge u v a).edge_count =
      if g.hasEdge u v then g.edge_count else g.edge_count + 1 := by
  show (g.add_edge u v a).edges.length = _
  rw [edges_add_edge]
  split
  · simpa using length_replaceKey g.edges (u, v) _
  · simp [edge_count]

theorem edgeKeys_add_edge (g : DiGraph) (u v : String) (a : Attrs) :
    (g.add_edge u v a).edgeKeys =
      if g.hasEdge u v then g.edgeKeys else g.edgeKeys ++ [(u, v)] := by
  show (g.add_edge u v a).edges.map Prod.fst = _
  rw [edges_add_edge]
  split
  · simpa using keys_replaceKey g.edges (u, v) _
  · simp [edgeKeys]

theorem nodup_nodeIds_ensureNode {g : DiGraph} (n : String)
    (h : g.nodeIds.Nodup) : (g.ensureNode n).nodeIds.Nodup := by
  rw [nodeIds_ensureNode]
  split
  · exact h
  · rename_i hn
    rw [List.nodup_append]
    refine ⟨h, List.nodup_singleton n, ?_⟩
    intro x hx hx'
    rw [List.mem_singleton] at hx'
    subst hx'
    exact (hasKey_false_iff_not_mem_keys.mp (Bool.of_not_eq_true hn)) hx

theorem WF_add_node {g : DiGraph} (n : String) (a : Attrs) (hwf : g.WF) :
    (g.add_node n a).WF := by
  obtain ⟨hN, hE, hC⟩ := hwf
  refine ⟨?_, ?_, ?_⟩
  · rw [nodeIds_add_node]
    split
    · exact hN
    · rename_i hn
      rw [List.nodup_append]
      refine ⟨hN, List.nodup_singleton n, ?_⟩
      intro x hx hx'
      rw [List.mem_singleton] at hx'
      subst hx'
      exact (hasKey_false_iff_not_mem_keys.mp (Bool.of_not_eq_true hn)) hx
  · rw [show (g.add_node n a).edgeKeys = g.edgeKeys from
      congrArg (List.map Prod.fst) (edges_add_node g n a)]
    exact hE
  · intro k hk
    rw [show (g.add_node n a).edgeKeys = g.edgeKeys from
      congrArg (List.map Prod.fst) (edges_add_node g n a)] at hk
    obtain ⟨h1, h2⟩ := hC k hk
    constructor <;> rw [hasNode_add_node] <;> simp [h1, h2]

theorem WF_add_edge {g : DiGraph} (u v : String) (a : Attrs) (hwf : g.WF) :
    (g.add_edge u v a).WF := by
  obtain ⟨hN, hE, hC⟩ := hwf
  refine ⟨?_, ?_, ?_⟩
  · rw [show (g.add_edge u v a).nodeIds =
        ((g.ensureNode u).ensureNode v).nodeIds from
      congrArg (List.map Prod.fst) (nodes_add_edge g u v a)]
    exact nodup_nodeIds_ensureNode v (nodup_nodeIds_ensureNode u hN)
  · rw [edgeKeys_add_edge]
    split
    · exact hE
    · rename_i hb
      rw [List.nodup_append]
      refine ⟨hE, List.nodup_singleton _, ?_⟩
      intro x hx hx'
      rw [List.mem_singleton] at hx'
      subst hx'
      exact (hasKey_false_iff_not_mem_keys.mp (Bool.of_not_eq_true hb)) hx
  · intro k hk
    have hmono : ∀ m : String, g.hasNode m = true →
        (g.add_edge u v a).hasNode m = true := by
      intro m hm
      rw [hasNode_add_edge]
      simp [hm]
    rw [edgeKeys_add_edge] at hk
    have huv : (g.add_edge u v a).hasNode u = true ∧
        (g.add_edge u v a).hasNode v = true := by
      constructor <;> rw [hasNode_add_edge] <;> simp
    rcases hk' : g.hasEdge u v with _ | _
    · rw [hk', if_neg (by simp)] at hk
      rcases List.mem_append.mp hk with hold | hnew
      · obtain ⟨h1, h2⟩ := hC k hold
        exact ⟨hmono _ h1, hmono _ h2⟩
      · rw [List.mem_singleton] at hnew
        subst hnew
        exact huv
    · rw [hk', if_pos rfl] at hk
      obtain ⟨h1, h2⟩ := hC k hk
      exact ⟨hmono _ h1, hmono _ h2⟩

theorem WF_empty : DiGraph.empty.WF := by
  refine ⟨List.nodup_nil, List.nodup_nil, ?_⟩
  intro k hk
  exact absurd hk (List.not_mem_nil k)

theorem hasNode_eq_isSome (g : DiGraph) (n : String) :
    g.hasNode n = (g.nodeAttrs n).isSome :=
  hasKey_iff_lookupKey_isSome g.nodes n

theorem hasEdge_eq_isSome (g : DiGraph) (u v : String) :
    g.hasEdge u v = (g.edgeAttrs u v).isSome :=
  hasKey_iff_lookupKey_isSome g.edges (u, v)

theorem hasNode_congr {g g' : DiGraph} (h : g'.nodes = g.nodes) (m : String) :
    g'.hasNode m = g.hasNode m := by
  show hasKey g'.nodes m = hasKey g.nodes m
  rw [h]

theorem node_count_add_edge (g : DiGraph) (u v : String) (a : Attrs) :
    (g.add_edge u v a).node_count =
      ((g.ensureNode u).ensureNode v).node_count :=
  congrArg List.length (nodes_add_edge g u v a)

end DiGraph

/-! ### Attribute dictionaries written by the store operations -/

theorem insightAttrs_keys (i : Insight) :
    (insightAttrs i).map Prod.fst =
      ["id", "summary", "sentiment", "tags", "embedding", "node_type"] := by
  simp [insightAttrs, Insight.model_dump, dictSet, hasKey]

theorem insightAttrs_keys_nodup (i : Insight) :
    ((insightAttrs i).map Prod.fst).Nodup := by
  rw [insightAttrs_keys]
  decide

theorem dictGet_insightAttrs_sentiment (i : Insight) :
    dictGet (insightAttrs i) "sentiment" = some (.vnum i.sentiment) := by
  simp [insightAttrs, Insight.model_dump, dictSet, dictGet, lookupKey, hasKey,
    List.find?]

theorem dictGet_insightAttrs_embedding (i : Insight) :
    dictGet (insightAttrs i) "embedding" =
      some (match i.embedding with
            | none => .vnull
            | some v => .vnumList v) := by
  simp [insightAttrs, Insight.model_dump, dictSet, dictGet, lookupKey, hasKey,
    List.find?]

theorem dictUpdate_productAttrs (p1 p2 : Product) :
    dictUpdate (productAttrs p1) (productAttrs p2) = productAttrs p2 := rfl

/-- Upserting a node and then reading back an attribute set by the written
dictionary returns the written value, whether the node was fresh or
updated. -/
theorem nodeAttr_add_node_self {A : Attrs} {k : String} {v : PyVal}
    (g : DiGraph) (n : String) (hA : (A.map Prod.fst).Nodup)
    (hk : dictGet A k = some v) : nodeAttr (g.add_node n A) n k = some v := by
  unfold nodeAttr
  rcases h : g.nodeAttrs n with _ | d
  · have hn : g.hasNode n = false := by
      rw [DiGraph.hasNode_eq_isSome, h]
      rfl
    rw [DiGraph.nodeAttrs_add_node_fresh hn]
    simpa using hk
  · rw [DiGraph.nodeAttrs_add_node_exists h]
    simpa using dictGet_dictUpdate_of_some hA hk d

/-- Reading an attribute of the Insight node just written by `add_insight`. -/
theorem nodeAttr_add_insight_self {k : String} {v : PyVal} (g : DiGraph)
    (i : Insight) (sid tid : String)
    (hk : dictGet (insightAttrs i) k = some v) :
    nodeAttr (add_insight g i sid tid) i.id k = some v := by
  have h1 : nodeAttr (g.add_node i.id (insightAttrs i)) i.id k = some v :=
    nodeAttr_add_node_self g i.id (insightAttrs_keys_nodup i) hk
  unfold nodeAttr at h1 ⊢
  rcases h2 : (g.add_node i.id (insightAttrs i)).nodeAttrs i.id with _ | d
  · rw [h2] at h1
    exact absurd h1 (by simp)
  · rw [h2] at h1
    show ((((g.add_node i.id (insightAttrs i)).add_edge sid i.id
        [("relation", .vstr "YIELDS")]).add_edge i.id tid
        [("relation", .vstr "ABOUT")]).nodeAttrs i.id).bind
        (fun d => dictGet d k) = some v
    rw [DiGraph.nodeAttrs_add_edge_of_some i.id tid _
      (DiGraph.nodeAttrs_add_edge_of_some sid i.id _ h2)]
    exact h1

/-! ### Frame lemmas: which node attributes a mutation can touch -/

theorem nodeAttr_congr {g1 g2 : DiGraph} (h : g1.nodes = g2.nodes)
    (nid k : String) : nodeAttr g1 nid k = nodeAttr g2 nid k := by
  unfold nodeAttr DiGraph.nodeAttrs
  rw [h]

/-- `ensureNode` never changes any attribute observation: an existing node
keeps its dictionary, and a freshly created endpoint has an empty one. -/
theorem nodeAttr_ensureNode (g : DiGraph) (n nid k : String) :
    nodeAttr (g.ensureNode n) nid k = nodeAttr g nid k := by
  by_cases he : n = nid
  · subst he
    by_cases hm : g.hasNode n = true
    · rw [DiGraph.ensureNode_of_hasNode hm]
    · have hb : g.hasNode n = false := Bool.of_not_eq_true hm
      have h0 : g.nodeAttrs n = none := by
        rw [DiGraph.hasNode_eq_isSome] at hb
        exact Option.not_isSome_iff_eq_none.mp (by simp [hb])
      unfold nodeAttr
      rw [DiGraph.nodeAttrs_ensureNode_fresh hb, h0]
      rfl
  · unfold nodeAttr
    rw [DiGraph.nodeAttrs_ensureNode_ne (fun hc => he hc.symm)]

/-- `add_edge` never changes any attribute observation of any node. -/
theorem nodeAttr_add_edge (g : DiGraph) (u v : String) (a : Attrs)
    (nid k : String) :
    nodeAttr (g.add_edge u v a) nid k = nodeAttr g nid k := by
  rw [nodeAttr_congr (DiGraph.nodes_add_edge g u v a) nid k,
    nodeAttr_ensureNode, nodeAttr_ensureNode]

/-! ### The linker never touches the node set -/

theorem collect_hasNode (g : DiGraph) :
    ∀ q ∈ collectInsights g, g.hasNode q.1 = true := by
  intro q hq
  unfold collectInsights at hq
  rcases List.mem_filterMap.mp hq with ⟨p, hp, hpq⟩
  split at hpq
  · rw [Option.some_inj] at hpq
    apply hasKey_true_iff_mem_keys.mpr
    rw [← hpq]
    exact List.mem_map.mpr ⟨p, hp, rfl⟩
  · exact absurd hpq (by simp)

theorem linkInner_nil (sim : List ℚ → List ℚ → ℚ) (t : ℚ)
    (p : String × List ℚ) (g : DiGraph) : linkInner sim t p [] g = (g, 0) :=
  rfl

theorem linkInner_cons (sim : List ℚ → List ℚ → ℚ) (t : ℚ)
    (p q : String × List ℚ) (rs : List (String × List ℚ)) (g : DiGraph) :
    linkInner sim t p (q :: rs) g =
      if t ≤ sim p.2 q.2 then
        ((linkInner sim t p rs
            (g.add_edge p.1 q.1 (semAttrs (sim p.2 q.2)))).1,
         1 + (linkInner sim t p rs
            (g.add_edge p.1 q.1 (semAttrs (sim p.2 q.2)))).2)
      else
        linkInner sim t p rs g := by
  by_cases h : t ≤ sim p.2 q.2 <;> simp [linkInner, h]

theorem linkOuter_cons (sim : List ℚ → List ℚ → ℚ) (t : ℚ)
    (p : String × List ℚ) (rs : List (String × List ℚ)) (g : DiGraph) :
    linkOuter sim t (p :: rs) g =
      ((linkOuter sim t rs (linkInner sim t p rs g).1).1,
       (linkInner sim t p rs g).2 +
         (linkOuter sim t rs (linkInner sim t p rs g).1).2) := by
  simp [linkOuter]

theorem nodes_linkInner (sim : List ℚ → List ℚ → ℚ) (t : ℚ)
    (p : String × List ℚ) (rest : List (String × List ℚ)) (g : DiGraph)
    (hp : g.hasNode p.1 = true) (hrest : ∀ q ∈ rest, g.hasNode q.1 = true) :
    (linkInner sim t p rest g).1.nodes = g.nodes := by
  induction rest generalizing g with
  | nil => rfl
  | cons q rs ih =>
    rw [linkInner_cons]
    have hrest' : ∀ r ∈ rs, g.hasNode r.1 = true :=
      fun r hr => hrest r (List.mem_cons_of_mem q hr)
    by_cases hsc : t ≤ sim p.2 q.2
    · rw [if_pos hsc]
      have hq : g.hasNode q.1 = true := hrest q (by simp)
      have hnodes : (g.add_edge p.1 q.1 (semAttrs (sim p.2 q.2))).nodes =
          g.nodes := DiGraph.nodes_add_edge_of_hasNode _ hp hq
      have hih := ih (g.add_edge p.1 q.1 (semAttrs (sim p.2 q.2)))
        (by rw [DiGraph.hasNode_congr hnodes]; exact hp)
        (fun r hr => by
          rw [DiGraph.hasNode_congr hnodes]
          exact hrest' r hr)
      exact hih.trans hnodes
    · rw [if_neg hsc]
      exact ih g hp hrest'

theorem nodes_linkOuter (sim : List ℚ → List ℚ → ℚ) (t : ℚ)
    (ps : List (String × List ℚ)) (g : DiGraph)
    (h : ∀ q ∈ ps, g.hasNode q.1 = true) :
    (linkOuter sim t ps g).1.nodes = g.nodes := by
  induction ps generalizing g with
  | nil => rfl
  | cons p rs ih =>
    rw [linkOuter_cons]
    have hp : g.hasNode p.1 = true := h p (by simp)
    have hrest : ∀ q ∈ rs, g.hasNode q.1 = true :=
      fun q hq => h q (List.mem_cons_of_mem p hq)
    have hinner := nodes_linkInner sim t p rs g hp hrest
    have hih := ih (linkInner sim t p rs g).1
      (fun q hq => by
        rw [DiGraph.hasNode_congr hinner]
        exact hrest q hq)
    exact hih.trans hinner

theorem nodes_link (sim : List ℚ → List ℚ → ℚ) (g : DiGraph)
    (th : Option ℚ) : (link_semantic_matches sim g th).1.nodes = g.nodes := by
  show (if (collectInsights g).length < 2 then (g, 0)
    else linkOuter sim (th.getD similarity_threshold) (collectInsights g)
      g).1.nodes = g.nodes
  split
  · rfl
  · exact nodes_linkOuter _ _ _ _ (collect_hasNode g)

/-! ### Node-count effect of `add_edge` with one missing endpoint -/

theorem node_count_add_edge_ft {g : DiGraph} {u v : String} (a : Attrs)
    (hu : g.hasNode u = false) (hv : g.hasNode v = true) :
    (g.add_edge u v a).node_count = g.node_count + 1 := by
  rw [DiGraph.node_count_add_edge, DiGraph.node_count_ensureNode,
    DiGraph.hasNode_ensureNode, hv, Bool.true_or, if_pos rfl,
    DiGraph.node_count_ensureNode, if_neg (by simp [hu])]

theorem node_count_add_edge_tf {g : DiGraph} {u v : String} (a : Attrs)
    (hu : g.hasNode u = true) (hv : g.hasNode v = false) :
    (g.add_edge u v a).node_count = g.node_count + 1 := by
  have hne : ¬ (u = v) := fun hc => by
    rw [hc, hv] at hu
    exact Bool.false_ne_true hu
  rw [DiGraph.node_count_add_edge, DiGraph.node_count_ensureNode,
    DiGraph.hasNode_ensureNode, hv, decide_eq_false hne, Bool.or_false,
    if_neg (by simp), DiGraph.node_count_ensureNode, if_pos hu]

/-! ### Claim theorems -/

/-- C6: on a graph with fewer than two Insight nodes carrying a present
embedding, `link_semantic_matches` returns 0 and leaves the graph entirely
unchanged — no node or edge is added or modified. -/
theorem chasm_C6 (sim : List ℚ → List ℚ → ℚ) (g : DiGraph) (th : Option ℚ)
    (h : (collectInsights g).length < 2) :
    link_semantic_matches sim g th = (g, 0) := by
  show (if (collectInsights g).length < 2 then (g, 0)
    else linkOuter sim (th.getD similarity_threshold) (collectInsights g) g) =
    (g, 0)
  rw [if_pos h]

theorem chasm_C6_witness :
    link_semantic_matches dotSim fixBase none = (fixBase, 0) :=
  chasm_C6 dotSim fixBase none (by decide)

/-- C7: `load_graph_from_disk` is a total function (no exception reaches the
caller); on a missing snapshot file, and on one that fails to parse, the
store is left exactly as passed in — the fresh empty store at process start,
so load yields the empty store in both failure cases. -/
theorem chasm_C7 :
    (∀ g : DiGraph, load_graph_from_disk g .missing = g ∧
        load_graph_from_disk g .corrupt = g) ∧
      load_graph_from_disk DiGraph.empty .missing = DiGraph.empty ∧
      load_graph_from_disk DiGraph.empty .corrupt = DiGraph.empty :=
  ⟨fun _ => ⟨rfl, rfl⟩, rfl, rfl⟩

/-- C8: `Insight` construction succeeds exactly when the sentiment lies in
[-1, 1] (a strictly out-of-range value fails validation), and the sentiment
a validated insight stores on its graph node is the in-range value itself,
so no stored Insight node carries a sentiment outside [-1, 1]. -/
theorem chasm_C8 :
    (∀ (id summary : String) (sentiment : ℚ) (tags : List String)
        (embedding : Option (List ℚ)),
        (Insight.validate id summary sentiment tags embedding).isSome ↔
          -1 ≤ sentiment ∧ sentiment ≤ 1) ∧
    ∀ (id summary : String) (sentiment : ℚ) (tags : List String)
        (embedding : Option (List ℚ)) (i : Insight),
        Insight.validate id summary sentiment tags embedding = some i →
        (-1 ≤ i.sentiment ∧ i.sentiment ≤ 1) ∧
          ∀ (g : DiGraph) (sid tid : String),
            nodeAttr (add_insight g i sid tid) i.id "sentiment" =
              some (.vnum i.sentiment) := by
  constructor
  · intro id summary sentiment tags embedding
    by_cases h : -1 ≤ sentiment ∧ sentiment ≤ 1 <;>
      simp [Insight.validate, h]
  · intro id summary sentiment tags embedding i hv
    unfold Insight.validate at hv
    split at hv
    · rename_i h
      rw [Option.some_inj] at hv
      subst hv
      exact ⟨h, fun g sid tid =>
        nodeAttr_add_insight_self g _ sid tid
          (dictGet_insightAttrs_sentiment _)⟩
    · exact absurd hv (by simp)

theorem chasm_C8_witness :
    nodeAttr (add_insight fixBase fixInsight "src-001" "comp-001") "ins-001"
        "sentiment" = some (.vnum (-4/5)) := by
  have hv : Insight.validate "ins-001" "Device overheats" (-4/5) ["heat"]
      (some [1, 0]) = some fixInsight := by
    unfold Insight.validate fixInsight
    rw [if_pos (by norm_num)]
  have h := chasm_C8.2 "ins-001" "Device overheats" (-4/5) ["heat"]
    (some [1, 0]) fixInsight hv
  exact h.2 fixBase "src-001" "comp-001"

/-- C3 fails on the code: re-upserting the same insight id via `add_insight`
with an entity whose embedding field is absent overwrites the stored vector
with null, so a present embedding becomes absent again. -/
theorem chasm_C3_counterexample :
    embeddingPresent (add_insight fixBase fixInsight "src-001" "comp-001")
        "ins-001" = true ∧
    embeddingPresent
        (add_insight (add_insight fixBase fixInsight "src-001" "comp-001")
          fixInsightNoEmb "src-001" "comp-001") "ins-001" = false := by
  decide

/-- C3 amended: an Insight node's embedding attribute persists under every
store operation that does not re-upsert that insight id — `add_product`,
`add_source`, `add_component` and `add_insight` upserting any other id leave
it untouched (even when the preserved node is referenced as the product,
source or target endpoint of the new edges), and the semantic linker never
modifies any node — and `add_insight` with a present (non-empty) embedding
stores it present; but a second `add_insight` carrying an absent embedding
overwrites the stored embedding with null, making it absent again. -/
theorem chasm_C3 :
    (∀ (g : DiGraph) (i : Insight) (sid tid : String),
        i.embedding = none →
        nodeAttr (add_insight g i sid tid) i.id "embedding" = some .vnull) ∧
    (∀ (g : DiGraph) (i : Insight) (sid tid : String) (v : List ℚ),
        i.embedding = some v → v ≠ [] →
        embeddingPresent (add_insight g i sid tid) i.id = true) ∧
    (∀ (g : DiGraph) (p : Product) (nid : String), p.id ≠ nid →
        nodeAttr (add_product g p) nid "embedding" =
          nodeAttr g nid "embedding") ∧
    (∀ (g : DiGraph) (s : Source) (nid : String), s.id ≠ nid →
        nodeAttr (add_source g s) nid "embedding" =
          nodeAttr g nid "embedding") ∧
    (∀ (g : DiGraph) (c : Component) (pid nid : String), c.id ≠ nid →
        nodeAttr (add_component g c pid) nid "embedding" =
          nodeAttr g nid "embedding") ∧
    (∀ (g : DiGraph) (i : Insight) (sid tid nid : String), i.id ≠ nid →
        nodeAttr (add_insight g i sid tid) nid "embedding" =
          nodeAttr g nid "embedding") ∧
    ∀ (sim : List ℚ → List ℚ → ℚ) (g : DiGraph) (th : Option ℚ),
        (link_semantic_matches sim g th).1.nodes = g.nodes := by
  refine ⟨?_, ?_, ?_, ?_, ?_, ?_, ?_⟩
  · intro g i sid tid he
    apply nodeAttr_add_insight_self
    rw [dictGet_insightAttrs_embedding, he]
  · intro g i sid tid v he hv
    have h := nodeAttr_add_insight_self g i sid tid
      (dictGet_insightAttrs_embedding i)
    rw [he] at h
    unfold embeddingPresent
    rw [h]
    simp [optTruthy, PyVal.truthy, hv]
  · intro g p nid hne
    unfold add_product nodeAttr
    rw [DiGraph.nodeAttrs_add_node_ne _ (fun hc => hne hc.symm)]
  · intro g s nid hne
    unfold add_source nodeAttr
    rw [DiGraph.nodeAttrs_add_node_ne _ (fun hc => hne hc.symm)]
  · intro g c pid nid hne
    show nodeAttr ((g.add_node c.id (componentAttrs c)).add_edge pid c.id
        [("relation", PyVal.vstr "HAS_COMPONENT")]) nid "embedding" =
      nodeAttr g nid "embedding"
    rw [nodeAttr_add_edge]
    unfold nodeAttr
    rw [DiGraph.nodeAttrs_add_node_ne _ (fun hc => hne hc.symm)]
  · intro g i sid tid nid hne
    show nodeAttr (((g.add_node i.id (insightAttrs i)).add_edge sid i.id
        [("relation", PyVal.vstr "YIELDS")]).add_edge i.id tid
        [("relation", PyVal.vstr "ABOUT")]) nid "embedding" =
      nodeAttr g nid "embedding"
    rw [nodeAttr_add_edge, nodeAttr_add_edge]
    unfold nodeAttr
    rw [DiGraph.nodeAttrs_add_node_ne _ (fun hc => hne hc.symm)]
  · exact fun sim g th => nodes_link sim g th

theorem chasm_C3_witness :
    nodeAttr (add_insight fixGraph fixInsightNoEmb "src-001" "comp-001")
        "ins-001" "embedding" = some .vnull :=
  chasm_C3.1 fixGraph fixInsightNoEmb "src-001" "comp-001" rfl

/-- C4 as stated fails: when the product's id was previously stored as a
different entity kind, the stale foreign attribute keys survive both
upserts, so the stored attributes differ from the second call's input. -/
theorem chasm_C4_counterexample :
    (add_product (add_product fixGraph fixImposter) fixImposter).nodeAttrs
        "ins-001" ≠ some (productAttrs fixImposter) := by
  decide

/-- C4 amended: two `add_product` calls with the same id always leave
`node_count` as after the first call and never touch the edge set; and
whenever the id was not already a node before the first call (so its
attribute dictionary holds only Product-schema keys), the stored attributes
equal exactly the second call's input. -/
theorem chasm_C4 (g : DiGraph) (p1 p2 : Product) (hid : p1.id = p2.id) :
    (add_product (add_product g p1) p2).node_count =
        (add_product g p1).node_count ∧
    (add_product (add_product g p1) p2).edges = (add_product g p1).edges ∧
    (g.hasNode p1.id = false →
      (add_product (add_product g p1) p2).nodeAttrs p2.id =
        some (productAttrs p2)) := by
  have hmem : (add_product g p1).hasNode p2.id = true := by
    unfold add_product
    rw [DiGraph.hasNode_add_node]
    simp [hid]
  refine ⟨?_, ?_, ?_⟩
  · show ((add_product g p1).add_node p2.id (productAttrs p2)).node_count = _
    rw [DiGraph.node_count_add_node, if_pos hmem]
  · exact DiGraph.edges_add_node _ _ _
  · intro hfresh
    have h1 : (add_product g p1).nodeAttrs p1.id = some (productAttrs p1) :=
      DiGraph.nodeAttrs_add_node_fresh hfresh _
    have h2 := DiGraph.nodeAttrs_add_node_exists h1 (productAttrs p2)
    rw [dictUpdate_productAttrs] at h2
    show ((add_product g p1).add_node p2.id (productAttrs p2)).nodeAttrs
        p2.id = some (productAttrs p2)
    rw [← hid]
    exact h2

theorem chasm_C4_witness :
    (add_product (add_product DiGraph.empty fixProduct) fixProduct2).nodeAttrs
        "prod-001" = some (productAttrs fixProduct2) :=
  (chasm_C4 DiGraph.empty fixProduct fixProduct2 rfl).2.2 (by decide)

/-- C9: `add_component` and `add_insight` never raise on a missing
referenced id; the missing id is silently created as a node with an empty
attribute dictionary (hence no `node_type` tag), so `node_count` grows
beyond the inserted node (by 2 resp. 3 when all referenced ids are fresh and
distinct); and both operations preserve the invariant that every edge's two
endpoints exist as nodes (no dangling edge). -/
theorem chasm_C9 :
    (∀ (g : DiGraph) (c : Component) (pid : String),
        g.hasNode pid = false → g.hasNode c.id = false → c.id ≠ pid →
        (add_component g c pid).node_count = g.node_count + 2 ∧
          (add_component g c pid).nodeAttrs pid = some []) ∧
    (∀ (g : DiGraph) (i : Insight) (sid tid : String),
        g.hasNode i.id = false → g.hasNode sid = false →
        g.hasNode tid = false → sid ≠ i.id → tid ≠ i.id → tid ≠ sid →
        (add_insight g i sid tid).node_count = g.node_count + 3 ∧
          (add_insight g i sid tid).nodeAttrs sid = some [] ∧
          (add_insight g i sid tid).nodeAttrs tid = some []) ∧
    (∀ (g : DiGraph) (c : Component) (pid : String), g.WF →
        (add_component g c pid).WF) ∧
    ∀ (g : DiGraph) (i : Insight) (sid tid : String), g.WF →
        (add_insight g i sid tid).WF := by
  refine ⟨?_, ?_, ?_, ?_⟩
  · intro g c pid hpid hcid hne
    set A := dictSet c.model_dump "node_type" (.vstr "Component") with hA
    have hg1pid : (g.add_node c.id A).hasNode pid = false := by
      rw [DiGraph.hasNode_add_node, hpid, decide_eq_false hne]
      rfl
    have hg1cid : (g.add_node c.id A).hasNode c.id = true := by
      rw [DiGraph.hasNode_add_node]
      simp
    constructor
    · show ((g.add_node c.id A).add_edge pid c.id _).node_count = _
      rw [node_count_add_edge_ft _ hg1pid hg1cid,
        DiGraph.node_count_add_node, if_neg (by simp [hcid])]
    · show lookupKey ((g.add_node c.id A).add_edge pid c.id _).nodes pid =
        some []
      rw [DiGraph.nodes_add_edge]
      exact DiGraph.nodeAttrs_ensureNode_of_some c.id
        (DiGraph.nodeAttrs_ensureNode_fresh hg1pid)
  · intro g i sid tid hiid hsid htid hs hti hts
    set A := dictSet i.model_dump "node_type" (.vstr "Insight") with hA
    set g1 := g.add_node i.id A with hg1
    set e1 := g1.add_edge sid i.id [("relation", .vstr "YIELDS")] with he1
    have hg1sid : g1.hasNode sid = false := by
      rw [hg1, DiGraph.hasNode_add_node, hsid,
        decide_eq_false (fun hc => hs hc.symm)]
      rfl
    have hg1iid : g1.hasNode i.id = true := by
      rw [hg1, DiGraph.hasNode_add_node]
      simp
    have hg1tid : g1.hasNode tid = false := by
      rw [hg1, DiGraph.hasNode_add_node, htid,
        decide_eq_false (fun hc => hti hc.symm)]
      rfl
    have he1iid : e1.hasNode i.id = true := by
      rw [he1, DiGraph.hasNode_add_edge, hg1iid]
      simp
    have he1tid : e1.hasNode tid = false := by
      rw [he1, DiGraph.hasNode_add_edge, hg1tid,
        decide_eq_false (fun hc => hts hc.symm),
        decide_eq_false (fun hc => hti hc.symm)]
      rfl
    have he1sid : e1.nodeAttrs sid = some [] := by
      show lookupKey e1.nodes sid = some []
      rw [he1, DiGraph.nodes_add_edge]
      exact DiGraph.nodeAttrs_ensureNode_of_some i.id
        (DiGraph.nodeAttrs_ensureNode_fresh hg1sid)
    refine ⟨?_, ?_, ?_⟩
    · show (e1.add_edge i.id tid _).node_count = _
      rw [node_count_add_edge_tf _ he1iid he1tid,
        node_count_add_edge_ft _ hg1sid hg1iid, hg1,
        DiGraph.node_count_add_node, if_neg (by simp [hiid])]
    · exact DiGraph.nodeAttrs_add_edge_of_some i.id tid _ he1sid
    · show lookupKey (e1.add_edge i.id tid _).nodes tid = some []
      rw [DiGraph.nodes_add_edge, DiGraph.ensureNode_of_hasNode he1iid]
      exact DiGraph.nodeAttrs_ensureNode_fresh he1tid
  · exact fun g c pid hwf =>
      DiGraph.WF_add_edge _ _ _ (DiGraph.WF_add_node _ _ hwf)
  · exact fun g i sid tid hwf =>
      DiGraph.WF_add_edge _ _ _
        (DiGraph.WF_add_edge _ _ _ (DiGraph.WF_add_node _ _ hwf))


/-! ### Reducing the nested linking loops to a fold over qualifying pairs -/

theorem linkInner_eq_foldl (sim : List ℚ → List ℚ → ℚ) (t : ℚ)
    (p : String × List ℚ) (rest : List (String × List ℚ)) (g : DiGraph) :
    linkInner sim t p rest g =
      (((rest.map (fun q => (p, q))).filter
          (fun pq => decide (t ≤ sim pq.1.2 pq.2.2))).foldl (addMatch sim) g,
       ((rest.map (fun q => (p, q))).filter
          (fun pq => decide (t ≤ sim pq.1.2 pq.2.2))).length) := by
  induction rest generalizing g with
  | nil => rfl
  | cons q rs ih =>
    rw [linkInner_cons, List.map_cons]
    by_cases hsc : t ≤ sim p.2 q.2
    · have hfc : List.filter (fun pq => decide (t ≤ sim pq.1.2 pq.2.2))
          ((p, q) :: List.map (fun y => (p, y)) rs) =
          (p, q) :: List.filter (fun pq => decide (t ≤ sim pq.1.2 pq.2.2))
            (List.map (fun y => (p, y)) rs) :=
        List.filter_cons_of_pos (decide_eq_true hsc)
      rw [if_pos hsc, hfc, List.foldl_cons, List.length_cons, ih]
      rw [Prod.mk.injEq]
      exact ⟨rfl, by omega⟩
    · have hfc : List.filter (fun pq => decide (t ≤ sim pq.1.2 pq.2.2))
          ((p, q) :: List.map (fun y => (p, y)) rs) =
          List.filter (fun pq => decide (t ≤ sim pq.1.2 pq.2.2))
            (List.map (fun y => (p, y)) rs) :=
        List.filter_cons_of_neg (by simpa using hsc)
      rw [if_neg hsc, hfc, ih]

theorem linkOuter_eq_foldl (sim : List ℚ → List ℚ → ℚ) (t : ℚ)
    (ps : List (String × List ℚ)) (g : DiGraph) :
    linkOuter sim t ps g =
      ((qualPairs sim t ps).foldl (addMatch sim) g,
       (qualPairs sim t ps).length) := by
  induction ps generalizing g with
  | nil => rfl
  | cons p rs ih =>
    rw [linkOuter_cons, linkInner_eq_foldl, ih]
    unfold qualPairs
    rw [show allPairs (p :: rs) = rs.map (fun y => (p, y)) ++ allPairs rs
        from rfl,
      List.filter_append, List.foldl_append, List.length_append,
      Prod.mk.injEq]
    exact ⟨rfl, rfl⟩

theorem allPairs_eq_nil_of_short {α : Type} {ps : List α}
    (h : ps.length < 2) : allPairs ps = [] := by
  match ps with
  | [] => rfl
  | [x] => rfl
  | x :: y :: rest => exact absurd h (by simp)

/-- The linker is the fold of `addMatch` over the qualifying pairs, and the
returned count is the number of qualifying pairs. -/
theorem link_eq_foldl (sim : List ℚ → List ℚ → ℚ) (g : DiGraph)
    (th : Option ℚ) :
    link_semantic_matches sim g th =
      ((qualPairs sim (th.getD similarity_threshold)
          (collectInsights g)).foldl (addMatch sim) g,
       (qualPairs sim (th.getD similarity_threshold)
          (collectInsights g)).length) := by
  show (if (collectInsights g).length < 2 then (g, 0)
    else linkOuter sim (th.getD similarity_threshold) (collectInsights g) g) =
    _
  by_cases h : (collectInsights g).length < 2
  · rw [if_pos h]
    unfold qualPairs
    rw [allPairs_eq_nil_of_short h]
    rfl
  · rw [if_neg h, linkOuter_eq_foldl]

/-! ### Effect of the fold on edges -/

theorem edgeAttrs_foldl_of_not_mem (sim : List ℚ → List ℚ → ℚ)
    {L : List ((String × List ℚ) × (String × List ℚ))} {x y : String}
    (h : (x, y) ∉ keysOf L) (g : DiGraph) :
    (L.foldl (addMatch sim) g).edgeAttrs x y = g.edgeAttrs x y := by
  induction L generalizing g with
  | nil => rfl
  | cons pq L' ih =>
    rw [List.foldl_cons]
    have hne : (x, y) ≠ (pq.1.1, pq.2.1) := by
      intro hc
      apply h
      show (x, y) ∈ (pq :: L').map fun r => (r.1.1, r.2.1)
      rw [List.map_cons, hc]
      exact List.mem_cons_self _ _
    have h' : (x, y) ∉ keysOf L' := by
      intro hc
      apply h
      show (x, y) ∈ (pq :: L').map fun r => (r.1.1, r.2.1)
      rw [List.map_cons]
      exact List.mem_cons_of_mem _ hc
    rw [ih h']
    exact DiGraph.edgeAttrs_add_edge_ne _ hne

theorem hasEdge_foldl (sim : List ℚ → List ℚ → ℚ)
    (L : List ((String × List ℚ) × (String × List ℚ))) (x y : String)
    (g : DiGraph) :
    (L.foldl (addMatch sim) g).hasEdge x y = true ↔
      (g.hasEdge x y = true ∨ (x, y) ∈ keysOf L) := by
  induction L generalizing g with
  | nil => simp [keysOf]
  | cons pq L' ih =>
    rw [List.foldl_cons]
    rw [ih (addMatch sim g pq)]
    show (g.add_edge pq.1.1 pq.2.1 _).hasEdge x y = true ∨ _ ↔ _
    rw [DiGraph.hasEdge_add_edge]
    simp only [keysOf, List.map_cons]
    constructor
    · rintro (hb | hm)
      · rcases Bool.or_eq_true_iff.mp hb with hb' | hb'
        · exact Or.inl hb'
        · refine Or.inr ?_
          rw [of_decide_eq_true hb']
          exact List.mem_cons_self _ _
      · exact Or.inr (List.mem_cons_of_mem _ hm)
    · rintro (hb | hm)
      · exact Or.inl (by rw [hb]; rfl)
      · rcases List.mem_cons.mp hm with hm' | hm'
        · exact Or.inl (by rw [hm', decide_eq_true rfl, Bool.or_true])
        · exact Or.inr hm'

theorem edge_count_foldl_of_all_present (sim : List ℚ → List ℚ → ℚ)
    (L : List ((String × List ℚ) × (String × List ℚ))) (g : DiGraph)
    (h : ∀ pq ∈ L, g.hasEdge pq.1.1 pq.2.1 = true) :
    (L.foldl (addMatch sim) g).edge_count = g.edge_count := by
  induction L generalizing g with
  | nil => rfl
  | cons pq L' ih =>
    rw [List.foldl_cons]
    have hpq : g.hasEdge pq.1.1 pq.2.1 = true := h pq (List.mem_cons_self _ _)
    have hstep : (addMatch sim g pq).edge_count = g.edge_count := by
      show (g.add_edge pq.1.1 pq.2.1 _).edge_count = _
      rw [DiGraph.edge_count_add_edge, if_pos hpq]
    have hall : ∀ r ∈ L', (addMatch sim g pq).hasEdge r.1.1 r.2.1 = true := by
      intro r hr
      show (g.add_edge pq.1.1 pq.2.1 _).hasEdge r.1.1 r.2.1 = true
      rw [DiGraph.hasEdge_add_edge, h r (List.mem_cons_of_mem _ hr)]
      rfl
    rw [ih _ hall, hstep]

theorem WF_foldl (sim : List ℚ → List ℚ → ℚ)
    (L : List ((String × List ℚ) × (String × List ℚ))) (g : DiGraph)
    (hwf : g.WF) : (L.foldl (addMatch sim) g).WF := by
  induction L generalizing g with
  | nil => exact hwf
  | cons pq L' ih =>
    rw [List.foldl_cons]
    exact ih _ (DiGraph.WF_add_edge _ _ _ hwf)

/-- The edge just written by `addMatch` carries the SEMANTIC_MATCH relation
and the rounded score as weight, whether it was fresh or overwritten. -/
theorem semEdge_addMatch (sim : List ℚ → List ℚ → ℚ) (g : DiGraph)
    (pq : (String × List ℚ) × (String × List ℚ)) :
    (addMatch sim g pq).edgeRel pq.1.1 pq.2.1 =
        some (.vstr "SEMANTIC_MATCH") ∧
      (addMatch sim g pq).edgeWeight pq.1.1 pq.2.1 =
        some (.vnum (roundTo4 (sim pq.1.2 pq.2.2))) := by
  unfold addMatch DiGraph.edgeRel DiGraph.edgeWeight
  rcases h : g.edgeAttrs pq.1.1 pq.2.1 with _ | d
  · have hb : g.hasEdge pq.1.1 pq.2.1 = false := by
      show hasKey g.edges (pq.1.1, pq.2.1) = false
      rw [hasKey_iff_lookupKey_isSome,
        show lookupKey g.edges (pq.1.1, pq.2.1) = none from h]
      rfl
    rw [DiGraph.edgeAttrs_add_edge_fresh hb]
    exact ⟨rfl, rfl⟩
  · rw [DiGraph.edgeAttrs_add_edge_exists h]
    have hupd : dictUpdate d (semAttrs (sim pq.1.2 pq.2.2)) =
        dictSet (dictSet d "relation" (.vstr "SEMANTIC_MATCH")) "weight"
          (.vnum (roundTo4 (sim pq.1.2 pq.2.2))) := rfl
    show dictGet (dictUpdate d (semAttrs (sim pq.1.2 pq.2.2))) "relation" =
        some (.vstr "SEMANTIC_MATCH") ∧
      dictGet (dictUpdate d (semAttrs (sim pq.1.2 pq.2.2))) "weight" =
        some (.vnum (roundTo4 (sim pq.1.2 pq.2.2)))
    rw [hupd]
    constructor
    · rw [dictGet_dictSet_ne _ _ _ _ (by decide), dictGet_dictSet_self]
    · rw [dictGet_dictSet_self]

/-- Last-write semantics of the fold: a pair written once, and never again
afterwards, determines the final relation and weight of its edge. -/
theorem semEdge_foldl (sim : List ℚ → List ℚ → ℚ)
    {L L1 L2 : List ((String × List ℚ) × (String × List ℚ))}
    {pq : (String × List ℚ) × (String × List ℚ)}
    (hL : L = L1 ++ pq :: L2) (h2 : (pq.1.1, pq.2.1) ∉ keysOf L2)
    (g : DiGraph) :
    (L.foldl (addMatch sim) g).edgeRel pq.1.1 pq.2.1 =
        some (.vstr "SEMANTIC_MATCH") ∧
      (L.foldl (addMatch sim) g).edgeWeight pq.1.1 pq.2.1 =
        some (.vnum (roundTo4 (sim pq.1.2 pq.2.2))) := by
  subst hL
  rw [List.foldl_append, List.foldl_cons]
  have hframe := edgeAttrs_foldl_of_not_mem sim h2
    (addMatch sim (L1.foldl (addMatch sim) g) pq)
  have hsem := semEdge_addMatch sim (L1.foldl (addMatch sim) g) pq
  unfold DiGraph.edgeRel DiGraph.edgeWeight at hsem ⊢
  rw [hframe]
  exact hsem

/-! ### Index structure of `allPairs` -/

theorem keysOf_append (L1 L2 : List ((String × List ℚ) × (String × List ℚ))) :
    keysOf (L1 ++ L2) = keysOf L1 ++ keysOf L2 := by
  simp [keysOf]

theorem keysOf_cons (pq : (String × List ℚ) × (String × List ℚ))
    (L : List ((String × List ℚ) × (String × List ℚ))) :
    keysOf (pq :: L) = (pq.1.1, pq.2.1) :: keysOf L := rfl

theorem mem_allPairs_of_getElem {α : Type} {ps : List α} {i j : ℕ} {x y : α}
    (hi : ps[i]? = some x) (hj : ps[j]? = some y) (hij : i < j) :
    (x, y) ∈ allPairs ps := by
  induction ps generalizing i j with
  | nil => simp at hi
  | cons p rs ih =>
    show (x, y) ∈ rs.map (fun q => (p, q)) ++ allPairs rs
    match i, j with
    | 0, 0 => exact absurd hij (by omega)
    | 0, j' + 1 =>
      obtain rfl : p = x := by simpa using hi
      have hy : y ∈ rs := by
        rw [List.getElem?_cons_succ] at hj
        rcases List.getElem?_eq_some.mp hj with ⟨hlt, hget⟩
        rw [← hget]
        exact List.getElem_mem hlt
      exact List.mem_append_left _ (List.mem_map.mpr ⟨y, hy, rfl⟩)
    | i' + 1, j' + 1 =>
      rw [List.getElem?_cons_succ] at hi hj
      exact List.mem_append_right _ (ih hi hj (by omega))

theorem mem_of_mem_allPairs {α : Type} {ps : List α} {pq : α × α}
    (h : pq ∈ allPairs ps) : pq.1 ∈ ps ∧ pq.2 ∈ ps := by
  induction ps with
  | nil => exact absurd h (by simp [allPairs])
  | cons p rs ih =>
    rw [show allPairs (p :: rs) = rs.map (fun q => (p, q)) ++ allPairs rs
      from rfl] at h
    rcases List.mem_append.mp h with hm | hm
    · rcases List.mem_map.mp hm with ⟨q, hq, hpq⟩
      cases hpq
      exact ⟨List.mem_cons_self _ _, List.mem_cons_of_mem _ hq⟩
    · exact ⟨List.mem_cons_of_mem _ (ih hm).1,
        List.mem_cons_of_mem _ (ih hm).2⟩

theorem getElem_of_mem_allPairs {α : Type} {ps : List α} {pq : α × α}
    (h : pq ∈ allPairs ps) :
    ∃ (i j : ℕ), i < j ∧ ps[i]? = some pq.1 ∧ ps[j]? = some pq.2 := by
  induction ps with
  | nil => exact absurd h (by simp [allPairs])
  | cons p rs ih =>
    rw [show allPairs (p :: rs) = rs.map (fun q => (p, q)) ++ allPairs rs
      from rfl] at h
    rcases List.mem_append.mp h with hm | hm
    · rcases List.mem_map.mp hm with ⟨q, hq, hpq⟩
      cases hpq
      rcases List.getElem_of_mem hq with ⟨n, hn, hget⟩
      refine ⟨0, n + 1, by omega, by simp, ?_⟩
      rw [List.getElem?_cons_succ]
      exact List.getElem?_eq_some.mpr ⟨hn, hget⟩
    · obtain ⟨i, j, hij, hi, hj⟩ := ih hm
      exact ⟨i + 1, j + 1, by omega, by simpa using hi, by simpa using hj⟩

theorem keysOf_allPairs_nodup {ps : List (String × List ℚ)}
    (h : (ps.map Prod.fst).Nodup) : (keysOf (allPairs ps)).Nodup := by
  induction ps with
  | nil => exact List.nodup_nil
  | cons p rs ih =>
    rw [List.map_cons, List.nodup_cons] at h
    show (List.map (fun pq => (pq.1.1, pq.2.1))
      (rs.map (fun q => (p, q)) ++ allPairs rs)).Nodup
    rw [List.map_append, List.map_map]
    refine List.nodup_append.mpr ⟨?_, ih h.2, ?_⟩
    · have hinj : Function.Injective (fun s : String => (p.1, s)) :=
        fun a b hab => congrArg Prod.snd hab
      have h2 : (List.map (fun s : String => (p.1, s))
          (rs.map Prod.fst)).Nodup := h.2.map hinj
      rw [List.map_map] at h2
      exact h2
    · intro a ha hb
      rcases List.mem_map.mp ha with ⟨q, hq, hqa⟩
      rcases List.mem_map.mp hb with ⟨pq, hpq, hpqa⟩
      apply h.1
      have ha1 : a.1 = p.1 := by
        rw [← hqa]
        rfl
      have hb1 : a.1 = pq.1.1 := by
        rw [← hpqa]
      rw [← ha1]
      rw [hb1]
      exact List.mem_map.mpr ⟨pq.1, (mem_of_mem_allPairs hpq).1, rfl⟩

theorem nodup_getElem?_inj {α : Type} {l : List α} (h : l.Nodup) {i j : ℕ}
    {a : α} (hi : l[i]? = some a) (hj : l[j]? = some a) : i = j := by
  rcases List.getElem?_eq_some.mp hi with ⟨hli, hgi⟩
  rcases List.getElem?_eq_some.mp hj with ⟨hlj, hgj⟩
  have hinj := List.nodup_iff_injective_get.mp h
    (show l.get ⟨i, hli⟩ = l.get ⟨j, hlj⟩ by
      show l[i] = l[j]
      rw [hgi, hgj])
  exact congrArg Fin.val hinj

theorem index_eq_of_fst_eq {ps : List (String × List ℚ)}
    (hnd : (ps.map Prod.fst).Nodup) {i j : ℕ} {x y : String × List ℚ}
    (hi : ps[i]? = some x) (hj : ps[j]? = some y) (hxy : x.1 = y.1) :
    i = j := by
  have hi' : (ps.map Prod.fst)[i]? = some x.1 := by
    rw [List.getElem?_map, hi]
    rfl
  have hj' : (ps.map Prod.fst)[j]? = some x.1 := by
    rw [List.getElem?_map, hj, hxy]
    rfl
  exact nodup_getElem?_inj hnd hi' hj'

/-! ### The collected insight ids are distinct on a well-formed graph -/

theorem collect_ids_sublist (g : DiGraph) :
    ((collectInsights g).map Prod.fst).Sublist g.nodeIds := by
  unfold collectInsights DiGraph.nodeIds
  induction g.nodes with
  | nil => simp
  | cons p l ih =>
    rw [List.filterMap_cons, List.map_cons]
    by_cases hc : dictGet p.2 "node_type" = some (.vstr "Insight") ∧
        optTruthy (dictGet p.2 "embedding") = true
    · rw [if_pos hc]
      rw [List.map_cons]
      exact ih.cons₂ p.1
    · rw [if_neg hc]
      exact ih.cons p.1

theorem collect_ids_nodup {g : DiGraph} (hwf : g.WF) :
    ((collectInsights g).map Prod.fst).Nodup :=
  (collect_ids_sublist g).nodup hwf.1

theorem collect_congr {g1 g2 : DiGraph} (h : g1.nodes = g2.nodes) :
    collectInsights g1 = collectInsights g2 := by
  unfold collectInsights
  rw [h]

/-! ### In a key-unique edge list a present key matches exactly one edge -/

theorem filter_key_length_one {l : List ((String × String) × Attrs)}
    (hnd : (l.map Prod.fst).Nodup) {k : String × String}
    (h : hasKey l k = true) :
    (l.filter fun e => decide (e.1 = k)).length = 1 := by
  induction l with
  | nil => exact absurd h (by simp [hasKey])
  | cons p l ih =>
    rw [List.map_cons, List.nodup_cons] at hnd
    by_cases hp : p.1 = k
    · have hfilter : (l.filter fun e => decide (e.1 = k)) = [] := by
        rw [List.filter_eq_nil_iff]
        intro e he
        simp only [decide_eq_true_eq]
        intro hek
        apply hnd.1
        rw [hp, ← hek]
        exact List.mem_map.mpr ⟨e, he, rfl⟩
      have hfc : List.filter (fun e => decide (e.1 = k)) (p :: l) =
          p :: List.filter (fun e => decide (e.1 = k)) l :=
        List.filter_cons_of_pos (decide_eq_true hp)
      rw [hfc, hfilter]
      rfl
    · have hfc : List.filter (fun e => decide (e.1 = k)) (p :: l) =
          List.filter (fun e => decide (e.1 = k)) l :=
        List.filter_cons_of_neg (by simpa using hp)
      rw [hfc]
      apply ih hnd.2
      rw [hasKey_cons, decide_eq_false hp, Bool.false_or] at h
      exact h

theorem chasm_C9_witness :
    (add_component DiGraph.empty fixComponent "prod-001").node_count = 2 ∧
    (add_component DiGraph.empty fixComponent "prod-001").nodeAttrs
        "prod-001" = some [] := by
  have h := chasm_C9.1 DiGraph.empty fixComponent "prod-001" (by decide)
    (by decide) (by decide)
  exact ⟨h.1, h.2⟩


/-- C1: with the threshold defaulting to the configured 0.75 when not
supplied, the linker collects the embedded Insight nodes in node-iteration
order (`collectInsights`), and for every pair collected at positions
`i < j`: if their score reaches the threshold (inclusive), the pass leaves
exactly one directed SEMANTIC_MATCH edge from the `i`-th to the `j`-th id,
whose weight is the score rounded to 4 decimal places; the reverse `(j, i)`
edge slot is untouched; and a pair scoring strictly below the threshold has
its `(i, j)` edge slot untouched as well. -/
theorem chasm_C1 (sim : List ℚ → List ℚ → ℚ) (g : DiGraph) (t : ℚ)
    (hwf : g.WF) :
    (link_semantic_matches sim g none =
        link_semantic_matches sim g (some similarity_threshold) ∧
      similarity_threshold = 3 / 4) ∧
    ∀ (i j : ℕ) (pi pj : String × List ℚ),
      (collectInsights g)[i]? = some pi →
      (collectInsights g)[j]? = some pj → i < j →
      (t ≤ sim pi.2 pj.2 →
        (link_semantic_matches sim g (some t)).1.edgeRel pi.1 pj.1 =
            some (.vstr "SEMANTIC_MATCH") ∧
          (link_semantic_matches sim g (some t)).1.edgeWeight pi.1 pj.1 =
            some (.vnum (roundTo4 (sim pi.2 pj.2))) ∧
          ((link_semantic_matches sim g (some t)).1.edges.filter
              (fun e => decide (e.1 = (pi.1, pj.1)))).length = 1) ∧
      ((link_semantic_matches sim g (some t)).1.edgeAttrs pj.1 pi.1 =
          g.edgeAttrs pj.1 pi.1) ∧
      (sim pi.2 pj.2 < t →
        (link_semantic_matches sim g (some t)).1.edgeAttrs pi.1 pj.1 =
          g.edgeAttrs pi.1 pj.1) := by
  refine ⟨⟨rfl, rfl⟩, ?_⟩
  intro i j pi pj hi hj hij
  have hlink := link_eq_foldl sim g (some t)
  have hgd : (some t).getD similarity_threshold = t := rfl
  rw [hgd] at hlink
  have hidnd : ((collectInsights g).map Prod.fst).Nodup :=
    collect_ids_nodup hwf
  have hkeysnd : (keysOf (qualPairs sim t (collectInsights g))).Nodup :=
    (List.Sublist.map _ (List.filter_sublist _)).nodup
      (keysOf_allPairs_nodup hidnd)
  refine ⟨?_, ?_, ?_⟩
  · intro hsc
    have hmemA : (pi, pj) ∈ allPairs (collectInsights g) :=
      mem_allPairs_of_getElem hi hj hij
    have hmemQ : (pi, pj) ∈ qualPairs sim t (collectInsights g) :=
      List.mem_filter.mpr ⟨hmemA, decide_eq_true hsc⟩
    obtain ⟨L1, L2, hdecomp⟩ := List.append_of_mem hmemQ
    have hnd2 := hkeysnd
    rw [hdecomp, keysOf_append, keysOf_cons] at hnd2
    have hnotin : ((pi, pj).1.1, (pi, pj).2.1) ∉ keysOf L2 :=
      (List.nodup_cons.mp (List.nodup_append.mp hnd2).2.1).1
    have hsem := semEdge_foldl sim hdecomp hnotin g
    refine ⟨?_, ?_, ?_⟩
    · rw [hlink]
      exact hsem.1
    · rw [hlink]
      exact hsem.2
    · rw [hlink]
      have hwf' : ((qualPairs sim t (collectInsights g)).foldl
          (addMatch sim) g).WF := WF_foldl sim _ g hwf
      have hhe : ((qualPairs sim t (collectInsights g)).foldl
          (addMatch sim) g).hasEdge pi.1 pj.1 = true :=
        (hasEdge_foldl sim _ pi.1 pj.1 g).mpr (Or.inr
          (List.mem_map.mpr ⟨(pi, pj), hmemQ, rfl⟩))
      exact filter_key_length_one hwf'.2.1 hhe
  · have hrevnot : (pj.1, pi.1) ∉ keysOf (qualPairs sim t
        (collectInsights g)) := by
      intro hmem
      rcases List.mem_map.mp hmem with ⟨pq, hpq, hkey⟩
      have hA : pq ∈ allPairs (collectInsights g) :=
        (List.mem_filter.mp hpq).1
      obtain ⟨i', j', hij', hi', hj'⟩ := getElem_of_mem_allPairs hA
      obtain ⟨h1, h2⟩ := Prod.mk.inj hkey
      have hieq : i' = j := index_eq_of_fst_eq hidnd hi' hj h1
      have hjeq : j' = i := index_eq_of_fst_eq hidnd hj' hi h2
      omega
    rw [hlink]
    exact edgeAttrs_foldl_of_not_mem sim hrevnot g
  · intro hlt
    have hnot : (pi.1, pj.1) ∉ keysOf (qualPairs sim t
        (collectInsights g)) := by
      intro hmem
      rcases List.mem_map.mp hmem with ⟨pq, hpq, hkey⟩
      rcases List.mem_filter.mp hpq with ⟨hA, hdec⟩
      obtain ⟨i', j', hij', hi', hj'⟩ := getElem_of_mem_allPairs hA
      obtain ⟨h1, h2⟩ := Prod.mk.inj hkey
      have hieq : i' = i := index_eq_of_fst_eq hidnd hi' hi h1
      have hjeq : j' = j := index_eq_of_fst_eq hidnd hj' hj h2
      subst hieq
      subst hjeq
      rw [hi] at hi'
      rw [hj] at hj'
      have e1 : pq.1 = pi := by
        injection hi'.symm
      have e2 : pq.2 = pj := by
        injection hj'.symm
      have hle : t ≤ sim pq.1.2 pq.2.2 := of_decide_eq_true hdec
      rw [e1, e2] at hle
      exact absurd hle (not_le.mpr hlt)
    rw [hlink]
    exact edgeAttrs_foldl_of_not_mem sim hnot g

theorem chasm_C1_witness :
    (link_semantic_matches oneSim fixGraph (some (3/4))).1.edgeRel "ins-001"
        "ins-002" = some (.vstr "SEMANTIC_MATCH") := by
  have h := (chasm_C1 oneSim fixGraph (3/4) (by decide)).2 0 1
    ("ins-001", [1, 0]) ("ins-002", [1, 1]) rfl rfl (by omega)
  exact (h.1 (by norm_num [oneSim])).1

/-- C10: the returned count is the number of qualifying pairs of that pass
(a function of the node set alone, so pairs whose SEMANTIC_MATCH edge
already exists are counted all the same); on a concrete already-linked
graph the pass returns 1 while the edge count does not grow; and re-running
the pass on the unchanged result returns the same count with the edge count
fixed. -/
theorem chasm_C10 :
    (∀ (sim : List ℚ → List ℚ → ℚ) (g : DiGraph) (th : Option ℚ),
        (link_semantic_matches sim g th).2 =
          (qualPairs sim (th.getD similarity_threshold)
            (collectInsights g)).length) ∧
    (∀ (sim : List ℚ → List ℚ → ℚ) (g1 g2 : DiGraph) (th : Option ℚ),
        g1.nodes = g2.nodes →
        (link_semantic_matches sim g1 th).2 =
          (link_semantic_matches sim g2 th).2) ∧
    ((link_semantic_matches oneSim
          (link_semantic_matches oneSim fixGraph (some (3/4))).1
          (some (3/4))).2 = 1 ∧
      (link_semantic_matches oneSim
          (link_semantic_matches oneSim fixGraph (some (3/4))).1
          (some (3/4))).1.edge_count =
        (link_semantic_matches oneSim fixGraph (some (3/4))).1.edge_count) ∧
    ∀ (sim : List ℚ → List ℚ → ℚ) (g : DiGraph) (th : Option ℚ),
      (link_semantic_matches sim (link_semantic_matches sim g th).1 th).2 =
          (link_semantic_matches sim g th).2 ∧
        (link_semantic_matches sim (link_semantic_matches sim g th).1
            th).1.edge_count =
          (link_semantic_matches sim g th).1.edge_count := by
  have hcount : ∀ (sim : List ℚ → List ℚ → ℚ) (g : DiGraph) (th : Option ℚ),
      (link_semantic_matches sim g th).2 =
        (qualPairs sim (th.getD similarity_threshold)
          (collectInsights g)).length :=
    fun sim g th => congrArg Prod.snd (link_eq_foldl sim g th)
  have hcongr : ∀ (sim : List ℚ → List ℚ → ℚ) (g1 g2 : DiGraph)
      (th : Option ℚ), g1.nodes = g2.nodes →
      (link_semantic_matches sim g1 th).2 =
        (link_semantic_matches sim g2 th).2 := by
    intro sim g1 g2 th h
    rw [hcount, hcount, collect_congr h]
  have hrerun : ∀ (sim : List ℚ → List ℚ → ℚ) (g : DiGraph) (th : Option ℚ),
      (link_semantic_matches sim (link_semantic_matches sim g th).1 th).2 =
          (link_semantic_matches sim g th).2 ∧
        (link_semantic_matches sim (link_semantic_matches sim g th).1
            th).1.edge_count =
          (link_semantic_matches sim g th).1.edge_count := by
    intro sim g th
    have hnodes := nodes_link sim g th
    constructor
    · exact hcongr sim _ g th hnodes
    · have hg1 : (link_semantic_matches sim g th).1 =
          (qualPairs sim (th.getD similarity_threshold)
            (collectInsights g)).foldl (addMatch sim) g :=
        congrArg Prod.fst (link_eq_foldl sim g th)
      have hlink2 := link_eq_foldl sim (link_semantic_matches sim g th).1 th
      have hcoll : collectInsights (link_semantic_matches sim g th).1 =
          collectInsights g := collect_congr hnodes
      rw [hlink2, hcoll]
      have hall : ∀ pq ∈ qualPairs sim (th.getD similarity_threshold)
          (collectInsights g),
          (link_semantic_matches sim g th).1.hasEdge pq.1.1 pq.2.1 = true := by
        intro pq hpq
        rw [hg1]
        exact (hasEdge_foldl sim _ pq.1.1 pq.2.1 g).mpr
          (Or.inr (List.mem_map.mpr ⟨pq, hpq, rfl⟩))
      exact edge_count_foldl_of_all_present sim _ _ hall
  have hone : (link_semantic_matches oneSim fixGraph (some (3/4))).2 = 1 := by
    rw [hcount]
    have hcol : collectInsights fixGraph =
        [("ins-001", [1, 0]), ("ins-002", [1, 1])] := rfl
    rw [hcol]
    show (List.filter (fun pq => decide ((3:ℚ)/4 ≤ oneSim pq.1.2 pq.2.2))
      [(("ins-001", [1, 0]), ("ins-002", [1, 1]))]).length = 1
    have hsc : (3:ℚ)/4 ≤ oneSim [1, 0] [1, 1] := by norm_num [oneSim]
    have hfc : List.filter
        (fun pq => decide ((3:ℚ)/4 ≤ oneSim pq.1.2 pq.2.2))
        [(("ins-001", [1, 0]), ("ins-002", [1, 1]))] =
        [(("ins-001", [1, 0]), ("ins-002", [1, 1]))] :=
      List.filter_cons_of_pos (decide_eq_true hsc)
    rw [hfc]
    rfl
  refine ⟨hcount, hcongr, ⟨?_, (hrerun oneSim fixGraph (some (3/4))).2⟩,
    hrerun⟩
  rw [(hrerun oneSim fixGraph (some (3/4))).1]
  exact hone

theorem chasm_C10_witness :
    (link_semantic_matches oneSim fixGraph (some (3/4))).2 =
      (link_semantic_matches oneSim
        (link_semantic_matches oneSim fixGraph (some (3/4))).1
        (some (3/4))).2 :=
  chasm_C10.2.1 oneSim fixGraph
    (link_semantic_matches oneSim fixGraph (some (3/4))).1 (some (3/4))
    (nodes_link oneSim fixGraph (some (3/4))).symm


/-! ### Round-trip of the node-link codec -/

theorem DiGraph.eq_of_fields {g1 g2 : DiGraph} (hn : g1.nodes = g2.nodes)
    (he : g1.edges = g2.edges) : g1 = g2 := by
  cases g1
  cases g2
  cases hn
  cases he
  rfl

theorem foldl_add_node_nodes (l : List (String × Attrs)) (g0 : DiGraph)
    (hfresh : ∀ p ∈ l, g0.hasNode p.1 = false)
    (hnd : (l.map Prod.fst).Nodup) :
    l.foldl (fun g p => g.add_node p.1 p.2) g0 =
      ⟨g0.nodes ++ l, g0.edges⟩ := by
  induction l generalizing g0 with
  | nil =>
    rw [List.foldl_nil, List.append_nil]
  | cons p l' ih =>
    rw [List.map_cons, List.nodup_cons] at hnd
    rw [List.foldl_cons]
    have hp : g0.hasNode p.1 = false := hfresh p (List.mem_cons_self _ _)
    have hadd : g0.add_node p.1 p.2 = ⟨g0.nodes ++ [p], g0.edges⟩ := by
      unfold DiGraph.add_node
      rw [if_neg (by simp [hp])]
    have hfresh' : ∀ q ∈ l', (g0.add_node p.1 p.2).hasNode q.1 = false := by
      intro q hq
      rw [DiGraph.hasNode_add_node, hfresh q (List.mem_cons_of_mem _ hq),
        decide_eq_false (fun hc => hnd.1
          (by rw [hc]; exact List.mem_map.mpr ⟨q, hq, rfl⟩))]
      rfl
    rw [ih _ hfresh' hnd.2, hadd]
    apply DiGraph.eq_of_fields
    · show (g0.nodes ++ [p]) ++ l' = g0.nodes ++ p :: l'
      rw [List.append_assoc]
      rfl
    · rfl

theorem foldl_add_edge_edges (l : List ((String × String) × Attrs))
    (g0 : DiGraph)
    (hnodes : ∀ e ∈ l, g0.hasNode e.1.1 = true ∧ g0.hasNode e.1.2 = true)
    (hfresh : ∀ e ∈ l, g0.hasEdge e.1.1 e.1.2 = false)
    (hnd : (l.map Prod.fst).Nodup) :
    l.foldl (fun g e => g.add_edge e.1.1 e.1.2 e.2) g0 =
      ⟨g0.nodes, g0.edges ++ l⟩ := by
  induction l generalizing g0 with
  | nil =>
    rw [List.foldl_nil, List.append_nil]
  | cons e l' ih =>
    rw [List.map_cons, List.nodup_cons] at hnd
    rw [List.foldl_cons]
    have hn := hnodes e (List.mem_cons_self _ _)
    have hf := hfresh e (List.mem_cons_self _ _)
    have hstep : g0.add_edge e.1.1 e.1.2 e.2 = ⟨g0.nodes, g0.edges ++ [e]⟩ := by
      apply DiGraph.eq_of_fields
      · rw [DiGraph.nodes_add_edge_of_hasNode _ hn.1 hn.2]
      · rw [DiGraph.edges_add_edge, if_neg (by simp [hf])]
    rw [hstep]
    have hnodes' : ∀ e' ∈ l',
        (⟨g0.nodes, g0.edges ++ [e]⟩ : DiGraph).hasNode e'.1.1 = true ∧
          (⟨g0.nodes, g0.edges ++ [e]⟩ : DiGraph).hasNode e'.1.2 = true :=
      fun e' he' => hnodes e' (List.mem_cons_of_mem _ he')
    have hfresh' : ∀ e' ∈ l',
        (⟨g0.nodes, g0.edges ++ [e]⟩ : DiGraph).hasEdge e'.1.1 e'.1.2 =
          false := by
      intro e' he'
      show hasKey (g0.edges ++ [e]) (e'.1.1, e'.1.2) = false
      rw [hasKey_append_single]
      show (g0.hasEdge e'.1.1 e'.1.2 || decide (e.1 = (e'.1.1, e'.1.2))) =
        false
      rw [hfresh e' (List.mem_cons_of_mem _ he'),
        decide_eq_false (fun hc => hnd.1
          (by rw [hc]; exact List.mem_map.mpr ⟨e', he', rfl⟩))]
      rfl
    rw [ih _ hnodes' hfresh' hnd.2]
    apply DiGraph.eq_of_fields
    · rfl
    · show (g0.edges ++ [e]) ++ l' = g0.edges ++ e :: l'
      rw [List.append_assoc]
      rfl

/-- On a well-formed graph the node-link codec round-trips exactly. -/
theorem node_link_roundtrip {g : DiGraph} (hwf : g.WF) :
    node_link_graph (node_link_data g) = g := by
  unfold node_link_graph node_link_data
  have h1 : g.nodes.foldl (fun g' p => g'.add_node p.1 p.2) DiGraph.empty =
      ⟨[] ++ g.nodes, []⟩ :=
    foldl_add_node_nodes g.nodes DiGraph.empty (fun p _ => rfl) hwf.1
  rw [h1]
  have h2 : g.edges.foldl (fun g' e => g'.add_edge e.1.1 e.1.2 e.2)
      (⟨[] ++ g.nodes, []⟩ : DiGraph) = ⟨[] ++ g.nodes, [] ++ g.edges⟩ := by
    apply foldl_add_edge_edges
    · intro e he
      have := hwf.2.2 e.1 (List.mem_map.mpr ⟨e, he, rfl⟩)
      exact this
    · intro e he
      rfl
    · exact hwf.2.1
  rw [h2]
  rw [List.nil_append, List.nil_append]

/-- C2: exporting a store to the node-link document and loading it back
yields a store with the same node count, the same edge count, and for every
edge slot the same relation label and weight. -/
theorem chasm_C2 (g g0 : DiGraph) (hwf : g.WF) :
    (load_graph_from_disk g0 (.valid (node_link_data g))).node_count =
        g.node_count ∧
      (load_graph_from_disk g0 (.valid (node_link_data g))).edge_count =
        g.edge_count ∧
      ∀ u v : String,
        (load_graph_from_disk g0 (.valid (node_link_data g))).edgeRel u v =
            g.edgeRel u v ∧
          (load_graph_from_disk g0
              (.valid (node_link_data g))).edgeWeight u v =
            g.edgeWeight u v := by
  have hrt : load_graph_from_disk g0 (.valid (node_link_data g)) = g :=
    node_link_roundtrip hwf
  rw [hrt]
  exact ⟨rfl, rfl, fun u v => ⟨rfl, rfl⟩⟩

theorem chasm_C2_witness :
    (load_graph_from_disk DiGraph.empty
        (.valid (node_link_data fixGraph))).node_count =
      fixGraph.node_count :=
  (chasm_C2 fixGraph DiGraph.empty (by decide)).1


/-! ### The single-hop product hierarchy (C5 infrastructure) -/

theorem componentAttrs_keys (c : Component) :
    (componentAttrs c).map Prod.fst = ["id", "name", "category", "node_type"] := by
  simp [componentAttrs, Component.model_dump, dictSet, hasKey]

theorem componentAttrs_keys_nodup (c : Component) :
    ((componentAttrs c).map Prod.fst).Nodup := by
  rw [componentAttrs_keys]
  decide

theorem dictGet_componentAttrs_id (c : Component) :
    dictGet (componentAttrs c) "id" = some (.vstr c.id) := by
  simp [componentAttrs, Component.model_dump, dictSet, dictGet, lookupKey,
    hasKey, List.find?]

theorem lookupKey_mem {κ β : Type} [DecidableEq κ] {l : List (κ × β)} {k : κ}
    {v : β} (h : lookupKey l k = some v) : (k, v) ∈ l := by
  induction l with
  | nil => exact absurd h (by simp [lookupKey_nil])
  | cons p l ih =>
    rw [lookupKey_cons] at h
    by_cases hp : p.1 = k
    · rw [if_pos hp, Option.some_inj] at h
      have : (k, v) = p := by
        rw [← hp, ← h]
      rw [this]
      exact List.mem_cons_self _ _
    · rw [if_neg hp] at h
      exact List.mem_cons_of_mem _ (ih h)

theorem lookupKey_eq_of_mem {κ β : Type} [DecidableEq κ]
    {l : List (κ × β)} (hnd : (l.map Prod.fst).Nodup) {p : κ × β}
    (h : p ∈ l) : lookupKey l p.1 = some p.2 := by
  induction l with
  | nil => exact absurd h (List.not_mem_nil p)
  | cons q l ih =>
    rw [List.map_cons, List.nodup_cons] at hnd
    rw [lookupKey_cons]
    rcases List.mem_cons.mp h with h' | h'
    · subst h'
      rw [if_pos rfl]
    · by_cases hq : q.1 = p.1
      · exact absurd (hq ▸ List.mem_map.mpr ⟨p, h', rfl⟩) hnd.1
      · rw [if_neg hq]
        exact ih hnd.2 h'

theorem IdConsistent_congr {g1 g2 : DiGraph} (h : g1.nodes = g2.nodes)
    (hg : g2.IdConsistent) : g1.IdConsistent := by
  unfold DiGraph.IdConsistent at *
  rw [h]
  exact hg

theorem IdConsistent_add_node {g : DiGraph} {n : String} {A : Attrs}
    (hg : g.IdConsistent) (hA : (A.map Prod.fst).Nodup)
    (hidA : dictGet A "id" = some (.vstr n)) :
    (g.add_node n A).IdConsistent := by
  intro p hp
  unfold DiGraph.add_node at hp
  split at hp
  · rcases List.mem_map.mp hp with ⟨q, hq, hqp⟩
    by_cases hk : q.1 = n
    · rw [if_pos hk] at hqp
      rw [← hqp]
      right
      show dictGet (dictUpdate q.2 A) "id" = some (.vstr q.1)
      rw [dictGet_dictUpdate_of_some hA hidA, hk]
    · rw [if_neg hk] at hqp
      rw [← hqp]
      exact hg q hq
  · rcases List.mem_append.mp hp with h1 | h1
    · exact hg p h1
    · rw [List.mem_singleton] at h1
      rw [h1]
      right
      exact hidA

theorem IdConsistent_ensureNode {g : DiGraph} (n : String)
    (hg : g.IdConsistent) : (g.ensureNode n).IdConsistent := by
  intro p hp
  unfold DiGraph.ensureNode at hp
  split at hp
  · exact hg p hp
  · rcases List.mem_append.mp hp with h1 | h1
    · exact hg p h1
    · rw [List.mem_singleton] at h1
      rw [h1]
      left
      rfl

theorem IdConsistent_add_edge {g : DiGraph} (u v : String) (a : Attrs)
    (hg : g.IdConsistent) : (g.add_edge u v a).IdConsistent :=
  IdConsistent_congr (DiGraph.nodes_add_edge g u v a)
    (IdConsistent_ensureNode v (IdConsistent_ensureNode u hg))

/-- Every entry of the hierarchy is the snapshot of a direct HAS_COMPONENT
successor. -/
theorem mem_hierarchy {g : DiGraph} (hnd : g.edgeKeys.Nodup) {pid : String}
    {d : Attrs} (h : d ∈ get_product_hierarchy g pid) :
    ∃ t : String, g.edgeRel pid t = some (.vstr "HAS_COMPONENT") ∧
      g.nodeAttrs t = some d := by
  unfold get_product_hierarchy at h
  rcases List.mem_filterMap.mp h with ⟨e, he, hed⟩
  rcases List.mem_filter.mp he with ⟨heg, hesrc⟩
  split at hed
  · rename_i hrel
    refine ⟨e.1.2, ?_, hed⟩
    have hsrc : e.1.1 = pid := of_decide_eq_true hesrc
    have hlk : lookupKey g.edges e.1 = some e.2 := lookupKey_eq_of_mem hnd heg
    unfold DiGraph.edgeRel DiGraph.edgeAttrs
    rw [show (pid, e.1.2) = e.1 from by rw [← hsrc]]
    rw [hlk]
    simpa using hrel
  · exact absurd hed (by simp)

theorem hierarchy_none (mk : String → Option Attrs) (pid cid : String) :
    ∀ l : List ((String × String) × Attrs),
      (∀ e ∈ l, e.1.1 = pid → ∀ d, mk e.1.2 = some d →
        dictGet d "id" ≠ some (.vstr cid)) →
      ((l.filter fun e => decide (e.1.1 = pid)).filterMap fun e =>
          if dictGet e.2 "relation" = some (.vstr "HAS_COMPONENT")
          then mk e.1.2 else none).filter
        (fun d => decide (dictGet d "id" = some (.vstr cid))) = [] := by
  intro l
  induction l with
  | nil => intro _; rfl
  | cons e l' ih =>
    intro hother
    have ih' := ih (fun e' he' => hother e' (List.mem_cons_of_mem _ he'))
    by_cases hsrc : e.1.1 = pid
    · rw [List.filter_cons, decide_eq_true hsrc, if_pos rfl]
      by_cases hrel : dictGet e.2 "relation" = some (.vstr "HAS_COMPONENT")
      · rcases hmk : mk e.1.2 with _ | d
        · rw [List.filterMap_cons, if_pos hrel, hmk]
          exact ih'
        · rw [List.filterMap_cons, if_pos hrel, hmk]
          have hno : decide (dictGet d "id" = some (.vstr cid)) = false :=
            decide_eq_false (hother e (List.mem_cons_self _ _) hsrc d hmk)
          have hfin : List.filter
              (fun d => decide (dictGet d "id" = some (.vstr cid)))
              (d :: ((l'.filter fun e => decide (e.1.1 = pid)).filterMap
                fun e =>
                  if dictGet e.2 "relation" = some (.vstr "HAS_COMPONENT")
                  then mk e.1.2 else none)) = [] := by
            rw [List.filter_cons, hno, if_neg Bool.false_ne_true]
            exact ih'
          exact hfin
      · rw [List.filterMap_cons, if_neg hrel]
        exact ih'
    · rw [List.filter_cons, decide_eq_false hsrc, if_neg Bool.false_ne_true]
      exact ih'

theorem hierarchy_unique (mk : String → Option Attrs) (pid cid : String)
    (snap : Attrs) (hsnap : dictGet snap "id" = some (.vstr cid)) :
    ∀ l : List ((String × String) × Attrs),
      (l.map Prod.fst).Nodup →
      hasKey l (pid, cid) = true →
      (∀ e ∈ l, e.1 = (pid, cid) →
        dictGet e.2 "relation" = some (.vstr "HAS_COMPONENT") ∧
          mk e.1.2 = some snap) →
      (∀ e ∈ l, e.1 ≠ (pid, cid) → e.1.1 = pid →
        ∀ d, mk e.1.2 = some d → dictGet d "id" ≠ some (.vstr cid)) →
      ((l.filter fun e => decide (e.1.1 = pid)).filterMap fun e =>
          if dictGet e.2 "relation" = some (.vstr "HAS_COMPONENT")
          then mk e.1.2 else none).filter
        (fun d => decide (dictGet d "id" = some (.vstr cid))) = [snap] := by
  intro l
  induction l with
  | nil =>
    intro _ hkey _ _
    exact absurd hkey (by simp [hasKey])
  | cons e l' ih =>
    intro hnd hkey hmatch hother
    rw [List.map_cons, List.nodup_cons] at hnd
    by_cases hk : e.1 = (pid, cid)
    · obtain ⟨hrel, hmk⟩ := hmatch e (List.mem_cons_self _ _) hk
      have hsrc : e.1.1 = pid := by
        rw [hk]
      rw [List.filter_cons, decide_eq_true hsrc, if_pos rfl,
        List.filterMap_cons, if_pos hrel, hmk]
      have hother' : ∀ e' ∈ l', e'.1.1 = pid → ∀ d, mk e'.1.2 = some d →
          dictGet d "id" ≠ some (.vstr cid) := by
        intro e' he' hsrc' d hmk'
        by_cases hk' : e'.1 = (pid, cid)
        · exact absurd (by rw [hk, ← hk']; exact List.mem_map.mpr ⟨e', he', rfl⟩)
            hnd.1
        · exact hother e' (List.mem_cons_of_mem _ he') hk' hsrc' d hmk'
      have hfin : List.filter
          (fun d => decide (dictGet d "id" = some (.vstr cid)))
          (snap :: ((l'.filter fun e => decide (e.1.1 = pid)).filterMap
            fun e =>
              if dictGet e.2 "relation" = some (.vstr "HAS_COMPONENT")
              then mk e.1.2 else none)) = [snap] := by
        rw [List.filter_cons, decide_eq_true hsnap, if_pos rfl,
          hierarchy_none mk pid cid l' hother']
      exact hfin
    · have hkey' : hasKey l' (pid, cid) = true := by
        rw [hasKey_cons, decide_eq_false hk, Bool.false_or] at hkey
        exact hkey
      have ih' := ih hnd.2 hkey'
        (fun e' he' => hmatch e' (List.mem_cons_of_mem _ he'))
        (fun e' he' => hother e' (List.mem_cons_of_mem _ he'))
      by_cases hsrc : e.1.1 = pid
      · rw [List.filter_cons, decide_eq_true hsrc, if_pos rfl]
        by_cases hrel : dictGet e.2 "relation" = some (.vstr "HAS_COMPONENT")
        · rcases hmk : mk e.1.2 with _ | d
          · rw [List.filterMap_cons, if_pos hrel, hmk]
            exact ih'
          · rw [List.filterMap_cons, if_pos hrel, hmk]
            have hno : decide (dictGet d "id" = some (.vstr cid)) = false :=
              decide_eq_false
                (hother e (List.mem_cons_self _ _) hk hsrc d hmk)
            have hfin : List.filter
                (fun d => decide (dictGet d "id" = some (.vstr cid)))
                (d :: ((l'.filter fun e => decide (e.1.1 = pid)).filterMap
                  fun e =>
                    if dictGet e.2 "relation" = some (.vstr "HAS_COMPONENT")
                    then mk e.1.2 else none)) = [snap] := by
              rw [List.filter_cons, hno, if_neg Bool.false_ne_true]
              exact ih'
            exact hfin
        · rw [List.filterMap_cons, if_neg hrel]
          exact ih'
      · rw [List.filter_cons, decide_eq_false hsrc, if_neg Bool.false_ne_true]
        exact ih'

/-- C5: after `add_component(C, pid)`, the single-hop hierarchy of `pid`
contains exactly one entry whose id is C's id, namely C's current node
snapshot; and every entry of the hierarchy is the snapshot of a node one
outgoing HAS_COMPONENT edge away from `pid` — components linked only to
other products are omitted and there is no transitive traversal. -/
theorem chasm_C5 (g : DiGraph) (c : Component) (pid : String) (hwf : g.WF)
    (hidc : g.IdConsistent) :
    ∀ g', g' = add_component g c pid →
      (get_product_hierarchy g' pid).filter
          (fun d => decide (dictGet d "id" = some (.vstr c.id))) =
        [(g'.nodeAttrs c.id).getD []] ∧
      dictGet ((g'.nodeAttrs c.id).getD []) "id" = some (.vstr c.id) ∧
      ∀ d ∈ get_product_hierarchy g' pid, ∃ t : String,
        g'.edgeRel pid t = some (.vstr "HAS_COMPONENT") ∧
          g'.nodeAttrs t = some d := by
  intro g' hg'
  have hwf' : g'.WF := by
    rw [hg']
    exact DiGraph.WF_add_edge _ _ _ (DiGraph.WF_add_node _ _ hwf)
  have hidc' : g'.IdConsistent := by
    rw [hg']
    exact IdConsistent_add_edge _ _ _
      (IdConsistent_add_node hidc (componentAttrs_keys_nodup c)
        (dictGet_componentAttrs_id c))
  have hsnapAttr : ∃ D, g'.nodeAttrs c.id = some D ∧
      dictGet D "id" = some (.vstr c.id) := by
    rw [hg']
    rcases h0 : g.nodeAttrs c.id with _ | d0
    · have hn : g.hasNode c.id = false := by
        rw [DiGraph.hasNode_eq_isSome, h0]
        rfl
      refine ⟨componentAttrs c, ?_, dictGet_componentAttrs_id c⟩
      exact DiGraph.nodeAttrs_add_edge_of_some pid c.id _
        (DiGraph.nodeAttrs_add_node_fresh hn _)
    · refine ⟨dictUpdate d0 (componentAttrs c), ?_, ?_⟩
      · exact DiGraph.nodeAttrs_add_edge_of_some pid c.id _
          (DiGraph.nodeAttrs_add_node_exists h0 _)
      · exact dictGet_dictUpdate_of_some (componentAttrs_keys_nodup c)
          (dictGet_componentAttrs_id c) d0
  obtain ⟨D, hD, hDid⟩ := hsnapAttr
  have hsnap_getD : (g'.nodeAttrs c.id).getD [] = D := by
    rw [hD]
    rfl
  have hedge : g'.edgeAttrs pid c.id ≠ none ∧
      g'.edgeRel pid c.id = some (.vstr "HAS_COMPONENT") := by
    rw [hg']
    show ((g.add_node c.id (componentAttrs c)).add_edge pid c.id
        [("relation", PyVal.vstr "HAS_COMPONENT")]).edgeAttrs pid c.id ≠
        none ∧
      ((g.add_node c.id (componentAttrs c)).add_edge pid c.id
        [("relation", PyVal.vstr "HAS_COMPONENT")]).edgeRel pid c.id =
        some (.vstr "HAS_COMPONENT")
    rcases he0 : (g.add_node c.id (componentAttrs c)).edgeAttrs pid c.id
        with _ | d1
    · have hb : (g.add_node c.id (componentAttrs c)).hasEdge pid c.id =
          false := by
        rw [DiGraph.hasEdge_eq_isSome, he0]
        rfl
      have hfr := DiGraph.edgeAttrs_add_edge_fresh hb
        [("relation", PyVal.vstr "HAS_COMPONENT")]
      constructor
      · rw [hfr]
        simp
      · unfold DiGraph.edgeRel
        rw [hfr]
        rfl
    · have hex := DiGraph.edgeAttrs_add_edge_exists he0
        [("relation", PyVal.vstr "HAS_COMPONENT")]
      constructor
      · rw [hex]
        simp
      · unfold DiGraph.edgeRel
        rw [hex]
        show dictGet (dictUpdate d1
            [("relation", PyVal.vstr "HAS_COMPONENT")]) "relation" =
          some (PyVal.vstr "HAS_COMPONENT")
        rw [show dictUpdate d1 [("relation", PyVal.vstr "HAS_COMPONENT")] =
            dictSet d1 "relation" (PyVal.vstr "HAS_COMPONENT") from rfl,
          dictGet_dictSet_self]
  have hkey : hasKey g'.edges (pid, c.id) = true := by
    rw [hg']
    exact DiGraph.hasEdge_add_edge_self _ pid c.id _
  refine ⟨?_, ?_, ?_⟩
  · show ((g'.edges.filter fun e => decide (e.1.1 = pid)).filterMap fun e =>
        if dictGet e.2 "relation" = some (.vstr "HAS_COMPONENT")
        then g'.nodeAttrs e.1.2 else none).filter
      (fun d => decide (dictGet d "id" = some (.vstr c.id))) =
      [(g'.nodeAttrs c.id).getD []]
    rw [hsnap_getD]
    apply hierarchy_unique g'.nodeAttrs pid c.id D hDid g'.edges hwf'.2.1 hkey
    · intro e he hek
      have hlk : lookupKey g'.edges e.1 = some e.2 :=
        lookupKey_eq_of_mem hwf'.2.1 he
      rw [hek] at hlk
      have hrel := hedge.2
      unfold DiGraph.edgeRel DiGraph.edgeAttrs at hrel
      rw [hlk] at hrel
      constructor
      · simpa using hrel
      · have ht : e.1.2 = c.id := congrArg Prod.snd hek
        rw [ht, hD]
    · intro e _ hek hsrc d hmkd hcontra
      have hmem : (e.1.2, d) ∈ g'.nodes := lookupKey_mem hmkd
      rcases hidc' (e.1.2, d) hmem with hnone | hsome
      · rw [hnone] at hcontra
        exact absurd hcontra (by simp)
      · rw [hsome] at hcontra
        rw [Option.some_inj] at hcontra
        have ht : e.1.2 = c.id := by
          injection hcontra
      
        apply hek
        show e.1 = (pid, c.id)
        rw [show e.1 = (e.1.1, e.1.2) from rfl, hsrc, ht]
  · rw [hsnap_getD]
    exact hDid
  · intro d hd
    exact mem_hierarchy hwf'.2.1 hd

theorem chasm_C5_witness :
    (get_product_hierarchy (add_component fixBase fixComponent "prod-001")
        "prod-001").filter
      (fun d => decide (dictGet d "id" = some (.vstr "comp-001"))) =
      [((add_component fixBase fixComponent "prod-001").nodeAttrs
          "comp-001").getD []] :=
  (chasm_C5 fixBase fixComponent "prod-001" (by decide) (by decide)
    (add_component fixBase fixComponent "prod-001") rfl).1

end Chasm
